import Mathlib

/-!
# Verification development for the `hshchk` directory-integrity checker

Shallow embedding of the processing engine of the `hshchk` repository:

* the manifest store (`src/src/hash_file.rs`): the two wire formats, their
  parsers and formatters, format detection, load and save;
* the reconciliation engine (`src/hshchk-lib/src/hash_file_process.rs`):
  processor construction with mode selection and self-exclusion, the per-file
  decision procedure, the walk, cancellation, and post-walk finalization;
* the digest adapter loop (`src/src/block_hasher.rs`): the bytes-processed
  notification protocol of `BlockHasher::compute`.

Modelling conventions:

* Rust strings (`String` / `&str`) are modelled as `List Char` (`Str`).  All
  manifest lines the engine itself produces are well-formed Unicode, and byte
  lengths are modelled exactly via `Char.utf8Size`.
* The host is fixed to Unix: `MAIN_SEPARATOR` is `'/'` and the replaceable
  separator is `'\\'`.
* The cryptographic digest algorithms are external crates, out of scope; a
  visited file carries the digest string the adapter would produce for its
  current content.  `hex::encode` output is lowercase hex by construction.
* `std::collections::HashMap` is modelled by an association list in insertion
  order together with an explicit iteration-order parameter (`mapOrder`)
  wherever the code iterates the map (`HashMap::values` in `save`,
  `HashMap::keys` in the missing-file sweep): the iteration order of a Rust
  `HashMap` is unspecified and varies between instances, so theorems either
  quantify over all orders that enumerate the same entries (`ValidOrder`) or
  exhibit particular orders.
* Panics (`panic!`, `unwrap`, `expect` on data) are modelled with `Except`:
  `.error` marks a run-aborting panic.
* Channel sends of progress events have no effect on the engine state or
  result and are not modelled; the bytes-processed notification protocol is
  modelled separately at the `BlockHasher::compute` level, where it lives.
-/

/-- Rust strings are modelled as lists of characters. -/
abbrev Str := List Char

/-- Rust `str::split(sep)` for a one-character separator: `n` separators yield
`n + 1` (possibly empty) pieces.  `splitOnChar sep []` is `[[]]`, matching
`"".split(sep)` which yields one empty piece. -/
def splitOnChar (sep : Char) : Str → List Str
  | [] => [[]]
  | c :: cs =>
    match splitOnChar sep cs with
    | [] => [[]]
    | r :: rs => if c = sep then [] :: r :: rs else (c :: r) :: rs

/-- Rust `str::replace(from, to)` for the one-character separators used by the
manifest store (`replaceable_separator` to `MAIN_SEPARATOR`): for one-character
patterns the substring replacement is exactly a character-wise map. -/
def replaceChar (from_ to_ : Char) (s : Str) : Str :=
  s.map fun c => if c = from_ then to_ else c

/-- Host `MAIN_SEPARATOR` (Unix). -/
def main_separator : Char := '/'

/-- The separator `hshchk` rewrites on load (`replaceable_separator()` on a
Unix host returns the backslash). -/
def replaceable_separator : Char := '\\'

/-- Path-separator normalization applied by `HashFile::load` to every line. -/
def replaceSep (s : Str) : Str := replaceChar replaceable_separator main_separator s

/-- Rust `BufRead::lines` strips one trailing carriage return from a line. -/
def dropTrailingCR (s : Str) : Str :=
  if s.getLast? = some '\r' then s.dropLast else s

/-- Rust `BufRead::lines` over the whole content: split on `'\n'`, drop the
final empty piece produced by a trailing newline, strip one trailing `'\r'`
from each line.  Empty content yields no lines. -/
def rustLines (s : Str) : List Str :=
  if s = [] then []
  else
    let parts := splitOnChar '\n' s
    (if parts.getLast? = some [] then parts.dropLast else parts).map dropTrailingCR

/-- Rust `BufRead::read_line`: the first line of the content, including its
terminating newline when one is present. -/
def read_line (content : Str) : Str :=
  let pre := content.takeWhile (fun c => ¬ c = '\n')
  if pre.length < content.length then pre ++ ['\n'] else pre

/-- ASCII lowercase mapping; `str::to_lowercase` agrees with it on the ASCII
manifest data the engine handles. -/
def toLowerStr (s : Str) : Str := s.map Char.toLower

/-- ASCII uppercase mapping; `str::to_uppercase` agrees with it on the ASCII
algorithm names. -/
def toUpperStr (s : Str) : Str := s.map Char.toUpper

/-- Byte length of a string (`str::len` counts UTF-8 bytes). -/
def utf8Len (s : Str) : Nat := (s.map Char.utf8Size).sum

/-- Largest `u64` value. -/
def U64_MAX : Nat := 2 ^ 64 - 1

/-- Numeric value of an ASCII digit. -/
def digitVal (c : Char) : Nat := c.toNat - 48

/-- Decimal digit to character, as in `u64`'s `Display`. -/
def digitChar (d : Nat) : Char :=
  match d with
  | 0 => '0' | 1 => '1' | 2 => '2' | 3 => '3' | 4 => '4'
  | 5 => '5' | 6 => '6' | 7 => '7' | 8 => '8' | _ => '9'

/-- Decimal representation, most significant digit first (fuel-driven so that
it reduces by evaluation; `decimalRepr` supplies enough fuel). -/
def decimalReprAux : Nat → Nat → Str
  | 0, _ => []
  | fuel + 1, n =>
    if n < 10 then [digitChar n]
    else decimalReprAux fuel (n / 10) ++ [digitChar (n % 10)]

/-- Rust `u64` `Display`: standard decimal representation, no sign, no leading
zeros (`0` prints as `"0"`). -/
def decimalRepr (n : Nat) : Str := decimalReprAux (n + 1) n

/-- Parse a nonempty all-digit string as a natural number. -/
def parseDecimalNat (s : Str) : Option Nat :=
  if !s.isEmpty && s.all Char.isDigit
  then some (s.foldl (fun a c => a * 10 + digitVal c) 0)
  else none

/-- Drop one leading `'+'` sign (`u64`'s `FromStr` accepts it). -/
def stripLeadingPlus (s : Str) : Str :=
  match s with
  | c :: rest => if c = '+' then rest else s
  | [] => s

/-- Rust `str::parse::<u64>`: an optional leading `'+'`, then a nonempty digit
string whose value fits in a `u64`; anything else is a parse error. -/
def parseU64 (s : Str) : Option Nat :=
  match parseDecimalNat (stripLeadingPlus s) with
  | some v => if v ≤ U64_MAX then some v else none
  | none => none

/-- One manifest record (`HashFileEntry` in `src/src/hash_file.rs`). -/
structure HashFileEntry where
  file_path : Str
  size : Option Nat
  binary : Bool
  digest : Str
deriving DecidableEq, Repr

/-- The two wire formats (`HashFileFormat` in `src/src/lib.rs`). -/
inductive HashFileFormat where
  | hashCheck
  | hashSum
deriving DecidableEq, Repr

/-- The supported digest algorithms (`HashType` in `src/src/lib.rs`). -/
inductive HashType where
  | md5
  | sha1
  | sha256
  | sha512
  | blake2b
  | blake2s
  | blake3
deriving DecidableEq, Repr

/-- `strum::EnumIter` enumeration order: declaration order of the variants. -/
def HashType.iterOrder : List HashType :=
  [.md5, .sha1, .sha256, .sha512, .blake2b, .blake2s, .blake3]

/-- `strum::IntoStaticStr`: the variant name as written in the source. -/
def HashType.str : HashType → Str
  | .md5 => "MD5".data
  | .sha1 => "SHA1".data
  | .sha256 => "SHA256".data
  | .sha512 => "SHA512".data
  | .blake2b => "Blake2b".data
  | .blake2s => "Blake2s".data
  | .blake3 => "Blake3".data

/-- Defensive limit on the path field (`MAX_PATH_SIZE` = 4096 - 1 bytes). -/
def MAX_PATH_SIZE : Nat := 4096 - 1

/-- Defensive limit on the digest field (`MAX_HASH_SIZE` = 1024 bytes). -/
def MAX_HASH_SIZE : Nat := 1024

/-- Parser for one line of the size-carrying (`HashCheck`) format, from
`parse_hash_check_entry` in `src/src/hash_file.rs`.  `.error` models the
panics (`panic!` on the length limits, `expect` on the size parse); `.ok none`
is a silently skipped line with a field count other than three. -/
def parse_hash_check_entry (line : Str) : Except Str (Option HashFileEntry) :=
  match splitOnChar '|' line with
  | [p0, p1, p2] =>
    if utf8Len p0 > MAX_PATH_SIZE then
      .error "File path length must be less than 4096 characters.".data
    else if utf8Len p2 > MAX_HASH_SIZE then
      .error "Hash length must be less than 1025 characters.".data
    else
      match parseU64 p1 with
      | none => .error "Failed to parse file size".data
      | some size =>
        .ok (some { file_path := p0, size := some size, binary := true,
                    digest := toLowerStr p2 })
  | _ => .ok none

/-- Parser for one line of the size-less (`HashSum`) format, from
`parse_hash_sum_entry` in `src/src/hash_file.rs`.  `find(' ')` and the slices
are byte-indexed in Rust; on the ASCII lines considered here byte and
character indices coincide.  A line whose first space is its last character
makes the byte accesses past the space panic (`.error`); a line with no space
is silently skipped. -/
def parse_hash_sum_entry (line : Str) : Except Str (Option HashFileEntry) :=
  match line.findIdx? (fun c => c = ' ') with
  | none => .ok none
  | some i =>
    if i + 2 > line.length then
      .error "byte index out of bounds".data
    else
      let digest := line.take i
      let file_path := line.drop (i + 2)
      let binary := line.getD (i + 1) ' ' = '*'
      if utf8Len file_path > MAX_PATH_SIZE then
        .error "File path length must be less than 4096 characters.".data
      else
        .ok (some { file_path := file_path, size := none, binary := binary,
                    digest := toLowerStr digest })

/-- Format detection on load (`get_hash_file_format`): the first line (as read
by `read_line`) contains a pipe iff the file is in the size-carrying format. -/
def get_hash_file_format (content : Str) : HashFileFormat :=
  if (read_line content).contains '|' then .hashCheck else .hashSum

/-- The per-line parser `load` selects for a detected format. -/
def entryParserFor : HashFileFormat → Str → Except Str (Option HashFileEntry)
  | .hashCheck => parse_hash_check_entry
  | .hashSum => parse_hash_sum_entry

/-- In-memory manifest: association list keyed by `file_path`, in insertion
order (contents of the Rust `HashMap`). -/
abbrev HashFileMap := List HashFileEntry

/-- `HashMap::insert`: replace the entry with the same key, else append. -/
def hfInsert (files : HashFileMap) (e : HashFileEntry) : HashFileMap :=
  if files.any (fun o => o.file_path = e.file_path) then
    files.map fun o => if o.file_path = e.file_path then e else o
  else files ++ [e]

/-- `HashMap::get`. -/
def hfGet (files : HashFileMap) (p : Str) : Option HashFileEntry :=
  files.find? fun e => e.file_path = p

/-- `HashMap::remove`. -/
def hfRemove (files : HashFileMap) (p : Str) : HashFileMap :=
  files.filter fun e => ¬ e.file_path = p

/-- `HashMap::is_empty`. -/
def hfIsEmpty (files : HashFileMap) : Bool := files.isEmpty

/-- `HashFile::load` body over the file's content: pick the parser from the
detected format, then for every line normalize separators, parse, and insert;
a parse panic aborts the load. -/
def hfLoadLines (entryParse : Str → Except Str (Option HashFileEntry)) :
    HashFileMap → List Str → Except Str HashFileMap
  | files, [] => .ok files
  | files, l :: ls =>
    match entryParse (replaceSep l) with
    | .error e => .error e
    | .ok none => hfLoadLines entryParse files ls
    | .ok (some e) => hfLoadLines entryParse (hfInsert files e) ls

/-- `HashFile::load` on a manifest file with the given content. -/
def hfLoad (content : Str) : Except Str HashFileMap :=
  hfLoadLines (entryParserFor (get_hash_file_format content)) [] (rustLines content)

/-- `format_hash_check_entry`: `path|size|digest` and a newline.  The
`entry.size.unwrap()` of the source can only be reached with a present size
(every entry the engine saves was added with `Some(file_size)`); `Option.get!`
models the unwrap. -/
def format_hash_check_entry (e : HashFileEntry) : Str :=
  e.file_path ++ '|' :: decimalRepr e.size.get! ++ '|' :: e.digest ++ ['\n']

/-- `format_hash_sum_entry`: `digest *path` and a newline. -/
def format_hash_sum_entry (e : HashFileEntry) : Str :=
  e.digest ++ ' ' :: '*' :: e.file_path ++ ['\n']

/-- The per-entry formatter `save` selects for the requested format. -/
def entryFormatterFor : HashFileFormat → HashFileEntry → Str
  | .hashCheck => format_hash_check_entry
  | .hashSum => format_hash_sum_entry

/-- `HashFile::save`: serialize the entries, one line each, in the iteration
order of the `HashMap` instance (the caller passes the entries in that
order). -/
def hfSaveContent (fmt : HashFileFormat) (entriesInIterationOrder : List HashFileEntry) : Str :=
  (entriesInIterationOrder.map (entryFormatterFor fmt)).flatten

/-- An iteration-order function is valid when it enumerates exactly the
entries of the map, in some order: all a Rust `HashMap` guarantees. -/
def ValidOrder (mapOrder : HashFileMap → List HashFileEntry) : Prop :=
  ∀ l : HashFileMap, (mapOrder l).Perm l

/-- `get_hashcheck_file_name`: `hshchk` with the lowercased algorithm name as
extension. -/
def get_hashcheck_file_name (t : HashType) : Str :=
  "hshchk.".data ++ toLowerStr t.str

/-- `get_hashsum_file_name`: the uppercased algorithm name followed by
`SUMS`. -/
def get_hashsum_file_name (t : HashType) : Str :=
  toUpperStr t.str ++ "SUMS".data

/-- Every conventional manifest file name, for both formats. -/
def manifestNames : List Str :=
  HashType.iterOrder.map get_hashcheck_file_name
    ++ HashType.iterOrder.map get_hashsum_file_name

/-- `hash_file_exists`: probe the target root for the algorithm's HashCheck
name, then its HashSum name.  `rootFiles` lists the names of the regular files
directly inside the canonical base path (what `is_file()` can find there). -/
def hash_file_exists (rootFiles : List Str) (t : HashType) : Option HashFileFormat :=
  if get_hashcheck_file_name t ∈ rootFiles then some .hashCheck
  else if get_hashsum_file_name t ∈ rootFiles then some .hashSum
  else none

/-- `get_existing_file_hash_type`: the desired algorithm first, then every
algorithm in enumeration order. -/
def get_existing_file_hash_type (rootFiles : List Str) (desired : HashType) :
    Option (HashType × HashFileFormat) :=
  match hash_file_exists rootFiles desired with
  | some fmt => some (desired, fmt)
  | none =>
    HashType.iterOrder.findSome? fun t =>
      (hash_file_exists rootFiles t).map fun fmt => (t, fmt)

/-- Process mode (`HashFileProcessType`). -/
inductive HashFileProcessType where
  | create
  | verify
deriving DecidableEq, Repr

/-- Run outcome (`HashFileProcessResult`). -/
inductive HashFileProcessResult where
  | success
  | error
  | noFilesProcessed
  | canceled
deriving DecidableEq, Repr

/-- Per-file anomaly kind (`FileProcessState`). -/
inductive FileProcessState where
  | extra
  | invalidUnicodeFileName
  | missing
  | incorrectSize
  | incorrectHash
  | error (msg : Str)
deriving DecidableEq, Repr

/-- One reported anomaly (`FileProcessEntry`). -/
structure FileProcessEntry where
  file_path : Str
  state : FileProcessState
deriving DecidableEq, Repr

/-- Construction options (`HashFileProcessOptions`).  The compiled match and
ignore regular expressions are modelled as opaque predicates on the path
string (`Regex::is_match`). -/
structure HashFileProcessOptions where
  base_path : Str := []
  hash_file_format : Option HashFileFormat := none
  hash_type : Option HashType := none
  force_create : Option Bool := none
  report_extra : Option Bool := none
  size_only : Option Bool := none
  matchFilter : Option (Str → Bool) := none
  ignoreFilter : Option (Str → Bool) := none

/-- Construction-time environment of `HashFileProcessor::new`: the file names
directly inside the canonical target root (for manifest probing), the file
name of `env::current_exe()`, and whether `env::current_dir()` joined with
that name is an existing file. -/
structure NewEnv where
  rootFiles : List Str
  exeFileName : Str
  cwdHasExeNamedFile : Bool

/-- The processor state fixed at construction. -/
structure ProcessorConfig where
  process_type : HashFileProcessType
  hash_type : HashType
  hash_file_format : Option HashFileFormat
  hash_file_rel : Str
  bin_file_name : Str
  base_path : Str
  size_only : Bool
  report_extra : Bool
  matchFilter : Option (Str → Bool)
  ignoreFilter : Option (Str → Bool)

/-- `HashFileProcessor::new`: canonicalize the base path; unless force-create
is set, probe for an existing manifest and on success switch to Verify with
the discovered algorithm and format; derive the manifest file name from the
(possibly overridden) format; disable the self-exclusion file name when the
current working directory does not hold a file named like the binary. -/
def HashFileProcessor.new (opts : HashFileProcessOptions) (env : NewEnv) : ProcessorConfig :=
  let hashType0 := opts.hash_type.getD .sha1
  let probe :=
    if opts.force_create.getD false then none
    else get_existing_file_hash_type env.rootFiles hashType0
  let (process_type, hash_type, hash_file_format) :=
    match probe with
    | some (t, fmt) => (HashFileProcessType.verify, t, some fmt)
    | none => (HashFileProcessType.create, hashType0, opts.hash_file_format)
  let hash_file_name :=
    match hash_file_format with
    | some .hashSum => get_hashsum_file_name hash_type
    | _ => get_hashcheck_file_name hash_type
  { process_type := process_type
    hash_type := hash_type
    hash_file_format := hash_file_format
    hash_file_rel := hash_file_name
    bin_file_name := if env.cwdHasExeNamedFile then env.exeFileName else []
    base_path := opts.base_path
    size_only := opts.size_only.getD false
    report_extra := opts.report_extra.getD false
    matchFilter := opts.matchFilter
    ignoreFilter := opts.ignoreFilter }

/-- One file handed to `process_file` by the directory walker.  `rel_path` is
the path relative to the canonical root; `valid_unicode` is whether `to_str()`
succeeds on it; `meta_error` is a `metadata()` failure message; `size` is the
metadata length; `digest` is the digest-adapter output for the file's current
content when hashed to completion. -/
structure VisitedFile where
  rel_path : Str
  valid_unicode : Bool := true
  meta_error : Option Str := none
  size : Nat := 0
  digest : Str := []
deriving DecidableEq, Repr

/-- Mutable engine state over one run. -/
structure RunState where
  hash_file : HashFileMap
  error_occurred : Bool
  files_processed : Bool
  errors : List FileProcessEntry
  warnings : List FileProcessEntry
deriving DecidableEq, Repr

/-- Initial state: the manifest loaded before the walk (empty in Create
mode). -/
def RunState.init (hf : HashFileMap) : RunState :=
  { hash_file := hf, error_occurred := false, files_processed := false,
    errors := [], warnings := [] }

/-- `HashFileProcessor::handle_error`: record the anomaly, set both the
error flag and the files-processed flag. -/
def handle_error (st : RunState) (p : Str) (s : FileProcessState) : RunState :=
  { st with error_occurred := true, files_processed := true,
            errors := st.errors ++ [⟨p, s⟩] }

/-- `HashFileProcessor::handle_warning`: record the anomaly; no flags are
touched. -/
def handle_warning (st : RunState) (p : Str) (s : FileProcessState) : RunState :=
  { st with warnings := st.warnings ++ [⟨p, s⟩] }

/-- Absolute path of a root-relative path, as the walker hands it over. -/
def filePathOf (cfg : ProcessorConfig) (rel : Str) : Str :=
  cfg.base_path ++ main_separator :: rel

/-- Result of the early part of `process_file`, before any hashing: either an
early return with the state so far, or fall-through to the hashing section
with the manifest entry looked up for the file. -/
inductive PreResult where
  | exit (st : RunState)
  | cont (st : RunState) (entry? : Option HashFileEntry)

/-- The early-return section of `process_file` (`hash_file_process.rs`,
`impl FileTreeProcessor`): skip the manifest file itself; warn and skip
ill-formed Unicode names; apply the match filter then the ignore filter to the
full path; report a metadata failure; look up the manifest entry and
short-circuit on a size mismatch; silently skip the self-excluded binary name
and unlisted files in Verify mode (warning `Extra` when requested). -/
def process_file_pre (cfg : ProcessorConfig) (st : RunState) (f : VisitedFile) : PreResult :=
  if filePathOf cfg f.rel_path = filePathOf cfg cfg.hash_file_rel then .exit st
  else if ¬ f.valid_unicode then
    .exit (handle_warning st (filePathOf cfg f.rel_path) .invalidUnicodeFileName)
  else if (cfg.matchFilter.map fun m => m (filePathOf cfg f.rel_path)).getD true = false then
    .exit st
  else if (cfg.ignoreFilter.map fun m => m (filePathOf cfg f.rel_path)).getD false = true then
    .exit st
  else
    match f.meta_error with
    | some msg => .exit (handle_error st f.rel_path (.error msg))
    | none =>
      match hfGet st.hash_file f.rel_path with
      | some e =>
        match e.size with
        | some esz =>
          if ¬ f.size = esz then .exit (handle_error st f.rel_path .incorrectSize)
          else .cont st (some e)
        | none => .cont st (some e)
      | none =>
        if f.rel_path = cfg.bin_file_name then .exit st
        else if cfg.process_type = .verify then
          .exit (if cfg.report_extra then handle_warning st f.rel_path .extra else st)
        else .cont st none

/-- Whether the hashing section actually computes a digest: everything except
size-only verification. -/
def wouldHash (cfg : ProcessorConfig) : Bool :=
  ¬ (cfg.size_only = true ∧ cfg.process_type = .verify)

/-- The mutation section of `process_file`, after the digest was computed (or
left empty in size-only verification): Create inserts the entry; Verify
compares the digest against the looked-up entry (unless size-only), then
removes it; either way the file counts as processed. -/
def process_file_mutate (cfg : ProcessorConfig) (st : RunState) (f : VisitedFile)
    (entry? : Option HashFileEntry) (digest : Str) : RunState :=
  let st1 :=
    if cfg.process_type = .create then
      { st with hash_file := hfInsert st.hash_file ⟨f.rel_path, some f.size, true, digest⟩ }
    else
      let st2 :=
        match entry? with
        | some e =>
          if ¬ cfg.size_only = true ∧ ¬ digest = e.digest then
            handle_error st f.rel_path .incorrectHash
          else st
        | none => st
      { st2 with hash_file := hfRemove st2.hash_file f.rel_path }
  { st1 with files_processed := true }

/-- `process_file` run to completion with no cancellation observed: the early
section, then (when not size-only verification) the digest computation, then
the mutation section.  The second component records whether the digest
adapter was invoked for this file. -/
def process_file (cfg : ProcessorConfig) (st : RunState) (f : VisitedFile) :
    RunState × Bool :=
  match process_file_pre cfg st f with
  | .exit st1 => (st1, false)
  | .cont st1 entry? =>
    if wouldHash cfg then (process_file_mutate cfg st1 f entry? f.digest, true)
    else (process_file_mutate cfg st1 f entry? [], false)

/-- `process_file` when the cancellation token is set while this file's digest
is being computed: `BlockHasher::compute` stops at its next block check, and
the `is_canceled` check after it returns before any manifest mutation or flag
update.  On a path that never reaches the digest computation the token is not
observed inside the call and the behaviour is the uninterrupted one. -/
def process_file_interrupted (cfg : ProcessorConfig) (st : RunState) (f : VisitedFile) :
    RunState × Bool :=
  match process_file_pre cfg st f with
  | .exit st1 => (st1, false)
  | .cont st1 entry? =>
    if wouldHash cfg then (st1, true)
    else (process_file_mutate cfg st1 f entry? [], false)

/-- Whether `process_file` on this file reaches the digest computation (and
hence contains a cancellation observation point). -/
def reachesHash (cfg : ProcessorConfig) (st : RunState) (f : VisitedFile) : Bool :=
  (match process_file_pre cfg st f with
   | .cont _ _ => true
   | .exit _ => false)
  && wouldHash cfg

/-- When the one-way cancellation token becomes set, projected onto the
observation points of a run: never; before the walker's check preceding the
i-th visited file (everything later is cut off); or while the i-th visited
file's digest is computed. -/
inductive CancelSpec where
  | never
  | beforeFile (i : Nat)
  | duringHash (i : Nat)
deriving DecidableEq, Repr

/-- The walk with no cancellation: `FileTree::traverse` calls `process_file`
once per visited file, in visitation order. -/
def runWalk (cfg : ProcessorConfig) (st : RunState) (fs : List VisitedFile) : RunState :=
  fs.foldl (fun s f => (process_file cfg s f).1) st

/-- The walk under a cancellation schedule: the walker checks the token before
every entry, so a token set before file `i` cuts the walk to the first `i`
files; a token set during file `i`'s hashing additionally runs the interrupted
call on file `i`. -/
def walkWithCancel (cfg : ProcessorConfig) (st : RunState) (files : List VisitedFile) :
    CancelSpec → RunState
  | .never => runWalk cfg st files
  | .beforeFile i => runWalk cfg st (files.take i)
  | .duringHash i =>
    let st1 := runWalk cfg st (files.take i)
    match files[i]? with
    | some f => (process_file_interrupted cfg st1 f).1
    | none => st1

/-- Everything a run produces: the result, the final engine state, and the
manifest content written to disk (if any). -/
structure RunOutcome where
  result : HashFileProcessResult
  state : RunState
  written : Option Str
deriving Repr

/-- Whether a manifest-listed path passes the filters of the missing-file
sweep (which, unlike the walk-time filters, are applied to the root-relative
path string). -/
def missingSweepKeeps (cfg : ProcessorConfig) (p : Str) : Bool :=
  ((cfg.matchFilter.map fun m => m p).getD true)
    && !((cfg.ignoreFilter.map fun m => m p).getD false)

/-- Post-walk finalization of `process_internal`: cancellation wins; then a
recorded error; Create saves a nonempty manifest (in the map's iteration
order) or reports that no files were processed; Verify sweeps the entries
left in the manifest, reporting `Missing` for every one that passes the
filters; finally the files-processed flag separates Success from
NoFilesProcessed. -/
def finalize (cfg : ProcessorConfig) (mapOrder : HashFileMap → List HashFileEntry)
    (canceled : Bool) (st : RunState) : RunOutcome :=
  if canceled then ⟨.canceled, st, none⟩
  else if st.error_occurred then ⟨.error, st, none⟩
  else if cfg.process_type = .create then
    if hfIsEmpty st.hash_file then ⟨.noFilesProcessed, st, none⟩
    else
      let content := hfSaveContent (cfg.hash_file_format.getD .hashCheck) (mapOrder st.hash_file)
      if st.files_processed then ⟨.success, st, some content⟩
      else ⟨.noFilesProcessed, st, some content⟩
  else
    if ¬ hfIsEmpty st.hash_file then
      let st1 := (mapOrder st.hash_file).foldl
        (fun s e =>
          if missingSweepKeeps cfg e.file_path then handle_error s e.file_path .missing
          else s)
        st
      if st1.error_occurred then ⟨.error, st1, none⟩
      else if st1.files_processed then ⟨.success, st1, none⟩
      else ⟨.noFilesProcessed, st1, none⟩
    else if st.files_processed then ⟨.success, st, none⟩
    else ⟨.noFilesProcessed, st, none⟩

/-- `process_internal`: load the manifest in Verify mode (the caller passes
the already-parsed entries `loaded`; a load panic aborts the process before
any run exists), walk under the cancellation schedule, then finalize.  The
token is one-way, so it reads as set at the final check iff the schedule is
not `never`. -/
def runProcess (cfg : ProcessorConfig) (loaded : HashFileMap) (files : List VisitedFile)
    (cancel : CancelSpec) (mapOrder : HashFileMap → List HashFileEntry) : RunOutcome :=
  let st0 := RunState.init (if cfg.process_type = .verify then loaded else [])
  let st1 := walkWithCancel cfg st0 files cancel
  finalize cfg mapOrder (¬ cancel = .never) st1

/-- The loop of `BlockHasher::compute` (`src/src/block_hasher.rs`), returning
the `bytes_processed` values of the notifications it sends.  `reads` is the
sequence of `read()` return values (the list ending models end-of-file, and a
zero read breaks the loop); `cancel i` is whether the token is observed set at
the check opening iteration `i`; `B` is the notification block size. -/
def computeLoop (cancel : Nat → Bool) (senderDefined : Bool) (B : Nat) :
    List Nat → Nat → Nat → Nat → List Nat
  | reads, it, bp, rnbs =>
    if cancel it then []
    else
      match reads with
      | [] => []
      | br :: rest =>
        if 0 < br then
          if senderDefined = true ∧ 0 < B then
            if B ≤ rnbs + br ∨ br = 0 then
              (bp + br) :: computeLoop cancel senderDefined B rest (it + 1) (bp + br)
                (if 0 < br then rnbs + br - B else rnbs + br)
            else computeLoop cancel senderDefined B rest (it + 1) (bp + br) (rnbs + br)
          else computeLoop cancel senderDefined B rest (it + 1) bp rnbs
        else []

/-- The notifications of one uncancelled `compute` over a file. -/
def computeNotifications (senderDefined : Bool) (B : Nat) (reads : List Nat) : List Nat :=
  computeLoop (fun _ => false) senderDefined B reads 0 0 0

/-- Reference notification schedule: scanning the reads, the next
notification fires at the end of the read that brings the cumulative byte
count to at least `(k + 1) * B`, where `k` notifications fired before; a zero
read ends the scan. -/
def expectedNotifs (B : Nat) : List Nat → Nat → Nat → List Nat
  | [], _, _ => []
  | br :: rest, bp, k =>
    if br = 0 then []
    else
      if (k + 1) * B ≤ bp + br then (bp + br) :: expectedNotifs B rest (bp + br) (k + 1)
      else expectedNotifs B rest (bp + br) k

/-- The manifest entry the engine records for a visited file in Create mode. -/
def entryOfFile (f : VisitedFile) : HashFileEntry :=
  { file_path := f.rel_path, size := some f.size, binary := true, digest := f.digest }

/-- A relative path the wire formats transport without loss: nonempty, within
the defensive length limit, and free of the pipe delimiter, line breaks, and
the replaceable separator (which `load` rewrites to the host separator). -/
def WFPathStr (p : Str) : Prop :=
  ¬ p = [] ∧ utf8Len p ≤ MAX_PATH_SIZE ∧
    ∀ c ∈ p, ¬ c = '|' ∧ ¬ c = '\n' ∧ ¬ c = '\r' ∧ ¬ c = '\\'

/-- A digest string the wire formats transport without loss: within the
defensive length limit, fixed by lowercasing, and free of the delimiters of
both formats.  The hex strings `hex::encode` produces satisfy all of this. -/
def WFDigestStr (d : Str) : Prop :=
  utf8Len d ≤ MAX_HASH_SIZE ∧ toLowerStr d = d ∧
    ∀ c ∈ d, ¬ c = '|' ∧ ¬ c = '\n' ∧ ¬ c = '\r' ∧ ¬ c = '\\' ∧ ¬ c = ' '

/-- A visited file the engine processes cleanly: well-formed Unicode name,
readable metadata, a `u64` size, and transportable path and digest. -/
def WFFile (f : VisitedFile) : Prop :=
  f.valid_unicode = true ∧ f.meta_error = none ∧ f.size ≤ U64_MAX ∧
    WFPathStr f.rel_path ∧ WFDigestStr f.digest

/-- The SHA-1 digest the adapter reports for the 4-byte content `data`
(`sha1` crate; the spec's concrete scenario pins this value). -/
def sha1OfDataHex : Str := "a17c9aaa61e80a1bf71d0d850af4e5baa9800bbd".data

/-- Concrete scenario: the single file `file` with content `data`. -/
def c2File : VisitedFile := { rel_path := "file".data, size := 4, digest := sha1OfDataHex }

/-- Concrete scenario, Create run with SHA-1 over a root containing only
`file` (the test binary is not in the working directory). -/
def c2CfgCreateCheck : ProcessorConfig :=
  HashFileProcessor.new { hash_type := some .sha1 }
    { rootFiles := ["file".data], exeFileName := "hshchk".data, cwdHasExeNamedFile := false }

/-- Concrete scenario, Create run with SHA-1 and the size-less format. -/
def c2CfgCreateSum : ProcessorConfig :=
  HashFileProcessor.new { hash_type := some .sha1, hash_file_format := some .hashSum }
    { rootFiles := ["file".data], exeFileName := "hshchk".data, cwdHasExeNamedFile := false }

/-- Concrete scenario, re-probing processor over the root now holding
`hshchk.sha1`. -/
def c2CfgVerifyCheck : ProcessorConfig :=
  HashFileProcessor.new {}
    { rootFiles := ["file".data, "hshchk.sha1".data], exeFileName := "hshchk".data,
      cwdHasExeNamedFile := false }

/-- Concrete scenario, re-probing processor over the root now holding
`SHA1SUMS`. -/
def c2CfgVerifySum : ProcessorConfig :=
  HashFileProcessor.new {}
    { rootFiles := ["file".data, "SHA1SUMS".data], exeFileName := "hshchk".data,
      cwdHasExeNamedFile := false }

/-- The manifest file itself as the walker visits it during the Verify pass
(its metadata is irrelevant: `process_file` skips it by path). -/
def manifestVisit (name : Str) : VisitedFile := { rel_path := name }

/-- Exact `hshchk.sha1` content of the concrete scenario. -/
def c2ContentCheck : Str := "file|4|a17c9aaa61e80a1bf71d0d850af4e5baa9800bbd\n".data

/-- Exact `SHA1SUMS` content of the concrete scenario. -/
def c2ContentSum : Str := "a17c9aaa61e80a1bf71d0d850af4e5baa9800bbd *file\n".data

/-- Two-entry directory for the serialization-order counterexample. -/
def c4FileA : VisitedFile := { rel_path := "a".data, size := 1, digest := "0a".data }

/-- Second file of the serialization-order counterexample. -/
def c4FileB : VisitedFile := { rel_path := "b".data, size := 2, digest := "0b".data }

/-- First Create run of the idempotence scenario. -/
def c4CfgCreate : ProcessorConfig :=
  HashFileProcessor.new { hash_type := some .sha1 }
    { rootFiles := ["a".data, "b".data], exeFileName := "hshchk".data,
      cwdHasExeNamedFile := false }

/-- Second Create run of the idempotence scenario: force-create over the same
directory, which now also holds the manifest written by the first run. -/
def c4CfgForce : ProcessorConfig :=
  HashFileProcessor.new { hash_type := some .sha1, force_create := some true }
    { rootFiles := ["a".data, "b".data, "hshchk.sha1".data], exeFileName := "hshchk".data,
      cwdHasExeNamedFile := false }

/-- Self-exclusion scenario: the working directory (not the target root)
holds a file named like the running binary, so `new` keeps the exclusion
name; the target root holds an ordinary data file with that same name. -/
def c5Cfg : ProcessorConfig :=
  HashFileProcessor.new { hash_type := some .sha1 }
    { rootFiles := ["hshchk".data, "other".data], exeFileName := "hshchk".data,
      cwdHasExeNamedFile := true }

/-- The target root's ordinary data file named like the binary. -/
def c5FileBinNamed : VisitedFile := { rel_path := "hshchk".data, size := 4, digest := "aa".data }

/-- The target root's other file. -/
def c5FileOther : VisitedFile := { rel_path := "other".data, size := 4, digest := "bb".data }

/-- Verify processor with an ignore filter matching every path (a compiled
`.*` pattern), over a root holding `hshchk.sha1`. -/
def c6Cfg : ProcessorConfig :=
  HashFileProcessor.new { ignoreFilter := some fun _ => true }
    { rootFiles := ["file".data, "hshchk.sha1".data], exeFileName := "hshchk".data,
      cwdHasExeNamedFile := false }

/-- Manifest entry carrying a size that disagrees with the file on disk. -/
def c6Entry : HashFileEntry :=
  { file_path := "file".data, size := some 5, binary := true, digest := "0d".data }

/-- The loaded manifest of the size-mismatch counterexample. -/
def c6Loaded : HashFileMap := [c6Entry]

/-- The on-disk file whose size (4) disagrees with its manifest entry (5). -/
def c6File : VisitedFile := { rel_path := "file".data, size := 4, digest := "0e".data }

/-- Create processor for the cancellation witness run. -/
def c3Cfg : ProcessorConfig :=
  HashFileProcessor.new { hash_type := some .sha1 }
    { rootFiles := ["file".data], exeFileName := "hshchk".data, cwdHasExeNamedFile := false }

/-- The file whose hashing the cancellation witness interrupts. -/
def c3File : VisitedFile := { rel_path := "file".data, size := 4, digest := "cc".data }

/-- Verify processor over a root with no eligible files but a manifest
listing one. -/
def c9Cfg : ProcessorConfig :=
  HashFileProcessor.new {}
    { rootFiles := ["hshchk.sha1".data], exeFileName := "hshchk".data,
      cwdHasExeNamedFile := false }

/-- The loaded manifest of the missing-file run. -/
def c9Loaded : HashFileMap :=
  [{ file_path := "file".data, size := some 4, binary := true, digest := "0f".data }]

/-- Manifest content whose second line carries an oversized digest field. -/
def c8Content : Str :=
  "ok|1|aa\n".data ++ "p|2|".data ++ List.replicate 1025 'b' ++ "\n".data

/-- The oversized line of `c8Content`. -/
def c8BadLine : Str := "p|2|".data ++ List.replicate 1025 'b'

/-- Join lines with a terminating newline each (the shape `save` writes). -/
def joinLines (ls : List Str) : Str := (ls.map fun l => l ++ ['\n']).flatten

/-- The size-carrying line of an entry, without the terminating newline. -/
def hash_check_line (e : HashFileEntry) : Str :=
  e.file_path ++ '|' :: decimalRepr e.size.get! ++ '|' :: e.digest

/-- The size-less line of an entry, without the terminating newline. -/
def hash_sum_line (e : HashFileEntry) : Str :=
  e.digest ++ ' ' :: '*' :: e.file_path

/-- The per-format line of an entry, without the terminating newline. -/
def formatLine : HashFileFormat → HashFileEntry → Str
  | .hashCheck => hash_check_line
  | .hashSum => hash_sum_line

/-- The conventional manifest file name for an algorithm and format. -/
def conventionalName (t : HashType) : HashFileFormat → Str
  | .hashCheck => get_hashcheck_file_name t
  | .hashSum => get_hashsum_file_name t

/-- The entry `load` reconstructs from a saved entry: the size-carrying format
restores it exactly; the size-less format drops the size. -/
def loadedEntry : HashFileFormat → HashFileEntry → HashFileEntry
  | .hashCheck, e => e
  | .hashSum, e => { e with size := none }

deriving instance DecidableEq for Except

/-- A root file whose name contains the pipe delimiter — legal on Unix, fatal
to the wire format. -/
def c1PipeFile : VisitedFile := { rel_path := "a|b".data, size := 4, digest := "ff".data }

/-- Create processor over the root holding only the pipe-named file. -/
def c1CfgCreate : ProcessorConfig :=
  HashFileProcessor.new { hash_type := some .sha1 }
    { rootFiles := ["a|b".data], exeFileName := "hshchk".data, cwdHasExeNamedFile := false }

/-- Re-probing processor over the same root after the manifest was written. -/
def c1CfgVerify : ProcessorConfig :=
  HashFileProcessor.new {}
    { rootFiles := ["a|b".data, "hshchk.sha1".data], exeFileName := "hshchk".data,
      cwdHasExeNamedFile := false }

/-- A file whose size (7) disagrees with the size its manifest entry carries
(4), for the size-mismatch witness. -/
def c6WitnessFile : VisitedFile := { rel_path := "file".data, size := 7, digest := "0e".data }

/-- A manifest entry the wire formats transport losslessly: a `u64` size is
present, the binary flag is set (the engine records every entry with it), and
the path and digest strings are transportable. -/
def WFEntry (e : HashFileEntry) : Prop :=
  (∃ n, e.size = some n ∧ n ≤ U64_MAX) ∧ e.binary = true ∧
    WFPathStr e.file_path ∧ WFDigestStr e.digest

instance (p : Str) : Decidable (WFPathStr p) := by
  unfold WFPathStr
  infer_instance

instance (d : Str) : Decidable (WFDigestStr d) := by
  unfold WFDigestStr
  infer_instance

instance (f : VisitedFile) : Decidable (WFFile f) := by
  unfold WFFile
  infer_instance

/-! ## String-level lemmas -/

theorem splitOnChar_ne_nil (sep : Char) (s : Str) : ¬ splitOnChar sep s = [] := by
  induction s with
  | nil => simp [splitOnChar]
  | cons c cs ih =>
    rw [splitOnChar]
    rcases h : splitOnChar sep cs with _ | ⟨r, rs⟩
    · exact absurd h ih
    · dsimp only
      split <;> simp

theorem splitOnChar_of_not_mem (sep : Char) (s : Str) (h : sep ∉ s) :
    splitOnChar sep s = [s] := by
  induction s with
  | nil => rfl
  | cons c cs ih =>
    have h1 : ¬ c = sep := fun hh => h (hh ▸ List.mem_cons_self c cs)
    have h2 : sep ∉ cs := fun hh => h (List.mem_cons_of_mem c hh)
    rw [splitOnChar, ih h2]
    simp [h1]

theorem splitOnChar_append_cons (sep : Char) (xs ys : Str) (h : sep ∉ xs) :
    splitOnChar sep (xs ++ sep :: ys) = xs :: splitOnChar sep ys := by
  induction xs with
  | nil =>
    rw [List.nil_append, splitOnChar]
    rcases hy : splitOnChar sep ys with _ | ⟨r, rs⟩
    · exact absurd hy (splitOnChar_ne_nil sep ys)
    · simp
  | cons c cs ih =>
    have h1 : ¬ c = sep := fun hh => h (hh ▸ List.mem_cons_self c cs)
    have h2 : sep ∉ cs := fun hh => h (List.mem_cons_of_mem c hh)
    rw [List.cons_append, splitOnChar, ih h2]
    simp [h1]

theorem takeWhile_append_cons (p : Char → Bool) (xs ys : Str) (c : Char)
    (hx : ∀ x ∈ xs, p x = true) (hc : p c = false) :
    (xs ++ c :: ys).takeWhile p = xs := by
  induction xs with
  | nil => simp [List.takeWhile_cons, hc]
  | cons a as ih =>
    simp [List.takeWhile_cons, hx a (by simp),
      ih fun x hx2 => hx x (by simp [hx2])]

theorem dropTrailingCR_eq_self (l : Str) (h : ∀ c ∈ l, ¬ c = '\r') :
    dropTrailingCR l = l := by
  rw [dropTrailingCR]
  rcases hl : l.getLast? with _ | c
  · simp
  · have hcm : c ∈ l := List.mem_of_mem_getLast? hl
    simp only [Option.some.injEq]
    exact if_neg fun hh => h c hcm hh

theorem joinLines_cons (l : Str) (ls : List Str) :
    joinLines (l :: ls) = l ++ '\n' :: joinLines ls := by
  simp [joinLines]

theorem splitOnChar_joinLines (ls : List Str) (h : ∀ l ∈ ls, '\n' ∉ l) :
    splitOnChar '\n' (joinLines ls) = ls ++ [[]] := by
  induction ls with
  | nil => rfl
  | cons l ls ih =>
    rw [joinLines_cons, splitOnChar_append_cons _ _ _ (h l (by simp)),
      ih fun x hx => h x (by simp [hx])]
    rfl

theorem rustLines_joinLines (ls : List Str) (hnl : ∀ l ∈ ls, '\n' ∉ l)
    (hcr : ∀ l ∈ ls, ∀ c ∈ l, ¬ c = '\r') :
    rustLines (joinLines ls) = ls := by
  cases ls with
  | nil => rfl
  | cons l ls =>
    rw [rustLines]
    have hne : ¬ joinLines (l :: ls) = [] := by
      rw [joinLines_cons]; simp
    rw [if_neg hne, splitOnChar_joinLines _ hnl]
    show List.map dropTrailingCR
        (if ((l :: ls) ++ [[]] : List Str).getLast? = some [] then ((l :: ls) ++ [[]]).dropLast
         else (l :: ls) ++ [[]]) = l :: ls
    rw [List.getLast?_concat, if_pos rfl, List.dropLast_concat]
    calc (l :: ls).map dropTrailingCR
        = (l :: ls).map id := List.map_congr_left fun x hx => dropTrailingCR_eq_self x (hcr x hx)
      _ = l :: ls := List.map_id _

/-! ## Decimal representation lemmas -/

theorem digitVal_digitChar (d : Nat) (h : d < 10) : digitVal (digitChar d) = d := by
  interval_cases d <;> decide

theorem isDigit_digitChar (d : Nat) (h : d < 10) : (digitChar d).isDigit = true := by
  interval_cases d <;> decide

theorem decimalReprAux_spec (fuel : Nat) :
    ∀ n, n < fuel →
      ¬ decimalReprAux fuel n = [] ∧
      (∀ c ∈ decimalReprAux fuel n, c.isDigit = true) ∧
      ∀ a : Nat, (decimalReprAux fuel n).foldl (fun a c => a * 10 + digitVal c) a
        = a * 10 ^ (decimalReprAux fuel n).length + n := by
  induction fuel with
  | zero => intro n hn; omega
  | succ fuel ih =>
    intro n hn
    by_cases h10 : n < 10
    · rw [decimalReprAux, if_pos h10]
      refine ⟨by simp, by simp [isDigit_digitChar n h10], fun a => ?_⟩
      simp [digitVal_digitChar n h10]
    · have hrec : n / 10 < fuel := by
        have h1 : n / 10 < n := Nat.div_lt_self (by omega) (by omega)
        omega
      obtain ⟨ih1, ih2, ih3⟩ := ih (n / 10) hrec
      rw [decimalReprAux, if_neg h10]
      refine ⟨by simp [ih1], ?_, fun a => ?_⟩
      · intro c hc
        rcases List.mem_append.1 hc with hc1 | hc1
        · exact ih2 c hc1
        · simp at hc1
          rw [hc1]
          exact isDigit_digitChar _ (Nat.mod_lt _ (by omega))
      · rw [List.foldl_append, ih3 a, List.length_append]
        simp only [List.foldl_cons, List.foldl_nil, List.length_cons, List.length_nil]
        rw [digitVal_digitChar _ (Nat.mod_lt _ (by omega))]
        rw [pow_succ, ← mul_assoc]
        have hdm : 10 * (n / 10) + n % 10 = n := Nat.div_add_mod n 10
        set m := a * 10 ^ (decimalReprAux fuel (n / 10)).length with hm
        omega

theorem decimalRepr_ne_nil (n : Nat) : ¬ decimalRepr n = [] :=
  (decimalReprAux_spec (n + 1) n (Nat.lt_succ_self n)).1

theorem decimalRepr_digits (n : Nat) : ∀ c ∈ decimalRepr n, c.isDigit = true :=
  (decimalReprAux_spec (n + 1) n (Nat.lt_succ_self n)).2.1

theorem decimalRepr_foldl (n : Nat) :
    (decimalRepr n).foldl (fun a c => a * 10 + digitVal c) 0 = n := by
  rw [decimalRepr, (decimalReprAux_spec (n + 1) n (Nat.lt_succ_self n)).2.2 0]
  simp

theorem isDigit_excludes (c : Char) (h : c.isDigit = true) :
    ¬ c = '|' ∧ ¬ c = '\n' ∧ ¬ c = '\r' ∧ ¬ c = '\\' ∧ ¬ c = ' ' := by
  refine ⟨?_, ?_, ?_, ?_, ?_⟩ <;> rintro rfl <;> exact absurd h (by decide)

theorem stripLeadingPlus_of_digits (s : Str) (h : ∀ c ∈ s, c.isDigit = true) :
    stripLeadingPlus s = s := by
  cases s with
  | nil => rfl
  | cons c rest =>
    have hc : c.isDigit = true := h c (by simp)
    have hcp : ¬ c = '+' := by rintro rfl; exact absurd hc (by decide)
    rw [stripLeadingPlus, if_neg hcp]

theorem parseU64_decimalRepr (n : Nat) (h : n ≤ U64_MAX) :
    parseU64 (decimalRepr n) = some n := by
  have hstrip : stripLeadingPlus (decimalRepr n) = decimalRepr n :=
    stripLeadingPlus_of_digits _ (decimalRepr_digits n)
  rw [parseU64, hstrip, parseDecimalNat]
  have hnotempty : (decimalRepr n).isEmpty = false := by
    rcases hr : decimalRepr n with _ | _
    · exact absurd hr (decimalRepr_ne_nil n)
    · rfl
  have hall : (decimalRepr n).all Char.isDigit = true :=
    List.all_eq_true.2 (decimalRepr_digits n)
  rw [hnotempty, hall]
  simp only [Bool.not_false, Bool.and_self, if_true]
  rw [decimalRepr_foldl n, if_pos h]

/-! ## Claim C7: format detection on load -/

/-- C7.  Format detection on load: `load` chooses its per-line parser through
`get_hash_file_format`, which reads the first line of the manifest file
(`read_line`); the size-carrying (`HashCheck`) format is chosen exactly when
that first line contains the pipe character, and the size-less (`HashSum`)
format otherwise. -/
theorem c7_format_detection_on_load (content : Str) :
    (get_hash_file_format content = .hashCheck ↔ '|' ∈ read_line content) ∧
    (get_hash_file_format content = .hashSum ↔ ¬ '|' ∈ read_line content) := by
  rw [get_hash_file_format]
  by_cases hm : '|' ∈ read_line content <;> simp [hm]

/-! ## Claim C8: defensive parse limits -/

theorem hfLoadLines_error_of_mem (parse : Str → Except Str (Option HashFileEntry))
    (ls : List Str) (l : Str) (hl : l ∈ ls)
    (herr : ∃ msg, parse (replaceSep l) = .error msg) :
    ∀ files, ∃ msg, hfLoadLines parse files ls = .error msg := by
  induction ls with
  | nil => cases hl
  | cons x xs ih =>
    intro files
    rw [hfLoadLines]
    rcases List.mem_cons.1 hl with rfl | hxs
    · obtain ⟨msg, hmsg⟩ := herr
      rw [hmsg]
      exact ⟨msg, rfl⟩
    · cases hpx : parse (replaceSep x) with
      | error msg => exact ⟨msg, rfl⟩
      | ok e? =>
        cases e? with
        | none => exact ih hxs files
        | some e => exact ih hxs (hfInsert files e)

/-- C8.  Defensive parse limits: when a manifest loads in the size-carrying
format, any line with exactly three pipe-separated fields whose path field
exceeds `MAX_PATH_SIZE` bytes or whose digest field exceeds `MAX_HASH_SIZE`
bytes makes `parse_hash_check_entry` panic, and the panic aborts the whole
load (the line is neither skipped nor accepted). -/
theorem c8_defensive_parse_limits (content l p0 p1 p2 : Str)
    (hfmt : get_hash_file_format content = .hashCheck)
    (hl : l ∈ rustLines content)
    (hsplit : splitOnChar '|' (replaceSep l) = [p0, p1, p2])
    (hlim : MAX_PATH_SIZE < utf8Len p0 ∨ MAX_HASH_SIZE < utf8Len p2) :
    (∃ msg, parse_hash_check_entry (replaceSep l) = .error msg) ∧
    ∃ msg, hfLoad content = .error msg := by
  have hparse : ∃ msg, parse_hash_check_entry (replaceSep l) = .error msg := by
    unfold parse_hash_check_entry
    rw [hsplit]
    dsimp only
    simp only [gt_iff_lt]
    by_cases hp : MAX_PATH_SIZE < utf8Len p0
    · rw [if_pos hp]
      exact ⟨_, rfl⟩
    · have hd : MAX_HASH_SIZE < utf8Len p2 := hlim.resolve_left hp
      rw [if_neg hp, if_pos hd]
      exact ⟨_, rfl⟩
  refine ⟨hparse, ?_⟩
  have hload := hfLoadLines_error_of_mem (entryParserFor (get_hash_file_format content))
    (rustLines content) l hl (by rw [hfmt]; exact hparse) []
  exact hload

set_option maxRecDepth 100000 in
/-- Witness for C8 on a concrete manifest: the second line's digest field has
1025 bytes, which aborts the load. -/
theorem c8_witness :
    (∃ msg, parse_hash_check_entry (replaceSep c8BadLine) = .error msg) ∧
    ∃ msg, hfLoad c8Content = .error msg :=
  c8_defensive_parse_limits c8Content c8BadLine "p".data "2".data (List.replicate 1025 'b')
    (by decide) (by decide) (by decide) (by decide)

/-! ## Claim C10: bytes-processed notification protocol -/

theorem computeLoop_eq_expectedNotifs (B : Nat) (hB : 0 < B) :
    ∀ (reads : List Nat), (∀ r ∈ reads, 0 < r) →
      ∀ it bp k, k * B ≤ bp →
        computeLoop (fun _ => false) true B reads it bp (bp - k * B)
          = expectedNotifs B reads bp k := by
  intro reads
  induction reads with
  | nil => intro _ it bp k _; rfl
  | cons br rest ih =>
    intro hpos it bp k hk
    have hbr : 0 < br := hpos br (by simp)
    have hrest : ∀ r ∈ rest, 0 < r := fun r hr => hpos r (by simp [hr])
    have hsucc : (k + 1) * B = k * B + B := by ring
    rw [computeLoop, expectedNotifs]
    have h0 : ¬ ((fun _ : Nat => false) it = true) := by simp
    rw [if_neg h0, if_pos hbr, if_pos (show true = true ∧ 0 < B from ⟨rfl, hB⟩)]
    rw [if_neg (show ¬ br = 0 by omega)]
    by_cases hfire : B ≤ bp - k * B + br
    · rw [if_pos (Or.inl hfire), if_pos hbr, if_pos (show (k + 1) * B ≤ bp + br by omega)]
      have harg : bp - k * B + br - B = bp + br - (k + 1) * B := by omega
      rw [harg]
      exact congrArg _ (ih hrest (it + 1) (bp + br) (k + 1) (by omega))
    · rw [if_neg (show ¬ (B ≤ bp - k * B + br ∨ br = 0) by omega)]
      rw [if_neg (show ¬ (k + 1) * B ≤ bp + br by omega)]
      have harg : bp - k * B + br = bp + br - k * B := by omega
      rw [harg]
      exact ih hrest (it + 1) (bp + br) k (by omega)

theorem expectedNotifs_sorted (B : Nat) :
    ∀ (reads : List Nat) (bp k : Nat),
      List.Pairwise (· < ·) (expectedNotifs B reads bp k) ∧
      ∀ v ∈ expectedNotifs B reads bp k, bp < v := by
  intro reads
  induction reads with
  | nil =>
    intro bp k
    exact ⟨List.Pairwise.nil, by intro v hv; cases hv⟩
  | cons br rest ih =>
    intro bp k
    rw [expectedNotifs]
    by_cases hz : br = 0
    · rw [if_pos hz]
      exact ⟨List.Pairwise.nil, by intro v hv; cases hv⟩
    · rw [if_neg hz]
      by_cases hfire : (k + 1) * B ≤ bp + br
      · rw [if_pos hfire]
        obtain ⟨ihp, ihb⟩ := ih (bp + br) (k + 1)
        refine ⟨List.Pairwise.cons (fun v hv => ihb v hv) ihp, ?_⟩
        intro v hv
        rcases List.mem_cons.1 hv with rfl | hv2
        · omega
        · exact lt_trans (by omega) (ihb v hv2)
      · rw [if_neg hfire]
        obtain ⟨ihp, ihb⟩ := ih (bp + br) k
        exact ⟨ihp, fun v hv => lt_of_le_of_lt (by omega) (ihb v hv)⟩

/-- C10 (amended).  For an observed compute with a positive notification
block size `B` and positive reads: the cumulative byte counts reported are
strictly increasing, and a notification fires at the end of exactly those
reads that bring the cumulative count to at least `(k + 1) * B`, where `k`
notifications fired before (`expectedNotifs`).  In particular no notification
fires after the final read, so a trailing partial block never produces one;
but because the running counter is only reduced by `B` at each notification,
a notification can fire when fewer than `B` bytes accumulated since the
previous one (see the counterexample). -/
theorem c10_notification_schedule (B : Nat) (reads : List Nat)
    (hB : 0 < B) (hpos : ∀ r ∈ reads, 0 < r) :
    computeNotifications true B reads = expectedNotifs B reads 0 0 ∧
    List.Pairwise (· < ·) (computeNotifications true B reads) := by
  have he : computeNotifications true B reads = expectedNotifs B reads 0 0 := by
    have h := computeLoop_eq_expectedNotifs B hB reads hpos 0 0 0 (by simp)
    simpa [computeNotifications] using h
  exact ⟨he, he ▸ (expectedNotifs_sorted B reads 0 0).1⟩

/-- Counterexample to C10 as stated: with notification block size 4 and reads
of 3 bytes each (read buffer of 3 bytes, reachable through the public
`new_with_buffer_size` and notification-block-size setter), the second
notification is sent at cumulative count 9 although only 3 bytes accumulated
since the previous notification at 6 — the notification condition carries the
overshoot of earlier reads instead of resetting. -/
theorem c10_counterexample :
    computeNotifications true 4 [3, 3, 3] = [6, 9] ∧ 9 - 6 < 4 := by decide

/-- Witness for C10 (amended) at a concrete input. -/
theorem c10_witness :
    computeNotifications true 2 [1, 1, 1] = expectedNotifs 2 [1, 1, 1] 0 0 ∧
    List.Pairwise (· < ·) (computeNotifications true 2 [1, 1, 1]) :=
  c10_notification_schedule 2 [1, 1, 1] (by decide) (by decide)

/-! ## Manifest map lemmas -/

theorem hfGet_eq_none (files : HashFileMap) (p : Str)
    (h : ∀ e ∈ files, ¬ e.file_path = p) : hfGet files p = none := by
  induction files with
  | nil => rfl
  | cons x xs ih =>
    rw [hfGet, List.find?_cons_of_neg _ (by simp [h x (by simp)])]
    exact ih fun e he => h e (by simp [he])

theorem hfGet_mem_of_nodup (files : HashFileMap) (e : HashFileEntry)
    (hnd : (files.map fun o => o.file_path).Nodup) (he : e ∈ files) :
    hfGet files e.file_path = some e := by
  induction files with
  | nil => cases he
  | cons x xs ih =>
    rw [List.map_cons, List.nodup_cons] at hnd
    rcases List.mem_cons.1 he with rfl | hxs
    · rw [hfGet, List.find?_cons_of_pos _ (by simp)]
    · have hx : ¬ x.file_path = e.file_path := by
        intro hh
        exact hnd.1 (hh ▸ List.mem_map_of_mem (fun o => o.file_path) hxs)
      rw [hfGet, List.find?_cons_of_neg _ (by simp [hx])]
      exact ih hnd.2 hxs

theorem hfInsert_fresh (files : HashFileMap) (e : HashFileEntry)
    (h : ∀ o ∈ files, ¬ o.file_path = e.file_path) :
    hfInsert files e = files ++ [e] := by
  rw [hfInsert, if_neg]
  simp only [List.any_eq_true, decide_eq_true_eq, not_exists]
  intro o
  rintro ⟨ho, ho2⟩
  exact h o ho ho2

theorem hfGet_hfRemove_ne (files : HashFileMap) (p q : Str) (h : ¬ q = p) :
    hfGet (hfRemove files p) q = hfGet files q := by
  induction files with
  | nil => rfl
  | cons x xs ih =>
    rw [hfRemove]
    by_cases hx : x.file_path = p
    · rw [List.filter_cons_of_neg (by simp [hx])]
      rw [show List.filter (fun e => decide ¬ e.file_path = p) xs = hfRemove xs p from rfl, ih]
      have hr : hfGet (x :: xs) q = hfGet xs q := by
        rw [hfGet, List.find?_cons_of_neg _ ?_]
        · rfl
        · intro hq
          simp only [decide_eq_true_eq] at hq
          exact h (hq ▸ hx)
      rw [hr]
    · rw [List.filter_cons_of_pos (by simp [hx])]
      by_cases hq : x.file_path = q
      · rw [hfGet, List.find?_cons_of_pos _ (by simp [hq]), hfGet,
          List.find?_cons_of_pos _ (by simp [hq])]
      · rw [hfGet, List.find?_cons_of_neg _ (by simp [hq]), hfGet,
          List.find?_cons_of_neg _ (by simp [hq])]
        rw [show List.find? (fun e => decide (e.file_path = q))
              (List.filter (fun e => decide ¬ e.file_path = p) xs)
            = hfGet (hfRemove xs p) q from rfl]
        exact ih

theorem foldl_hfRemove_eq_filter (ps : List Str) :
    ∀ files : HashFileMap,
      ps.foldl hfRemove files = files.filter fun e => ¬ e.file_path ∈ ps := by
  induction ps with
  | nil =>
    intro files
    rw [List.foldl_nil]
    exact (List.filter_eq_self.2 (by simp)).symm
  | cons p ps ih =>
    intro files
    rw [List.foldl_cons, ih (hfRemove files p), hfRemove, List.filter_filter]
    refine List.filter_congr fun e he => ?_
    by_cases h1 : e.file_path = p <;> by_cases h2 : e.file_path ∈ ps <;> simp [h1, h2]

/-! ## Per-file step lemmas -/

theorem filePathOf_inj (cfg : ProcessorConfig) (a b : Str) :
    filePathOf cfg a = filePathOf cfg b ↔ a = b := by
  constructor
  · intro h
    have h2 := List.append_cancel_left h
    exact List.cons.inj h2 |>.2
  · rintro rfl; rfl

theorem process_file_hash_file_skip (cfg : ProcessorConfig) (st : RunState) (f : VisitedFile)
    (h : f.rel_path = cfg.hash_file_rel) :
    process_file cfg st f = (st, false) := by
  have hp : process_file_pre cfg st f = .exit st := by
    rw [process_file_pre, if_pos (by rw [h])]
  rw [process_file, hp]

theorem process_file_pre_cont_state (cfg : ProcessorConfig) (st : RunState) (f : VisitedFile)
    (st1 : RunState) (e? : Option HashFileEntry)
    (h : process_file_pre cfg st f = .cont st1 e?) : st1 = st := by
  unfold process_file_pre at h
  repeat' split at h
  all_goals try cases h
  all_goals rfl

theorem process_file_create_step (cfg : ProcessorConfig) (st : RunState) (f : VisitedFile)
    (hc : cfg.process_type = .create)
    (hmf : cfg.matchFilter = none) (hif : cfg.ignoreFilter = none)
    (hrel : ¬ f.rel_path = cfg.hash_file_rel)
    (hvu : f.valid_unicode = true) (hme : f.meta_error = none)
    (hbin : ¬ f.rel_path = cfg.bin_file_name)
    (hfresh : ∀ e ∈ st.hash_file, ¬ e.file_path = f.rel_path) :
    process_file cfg st f =
      ({ st with hash_file := st.hash_file ++ [entryOfFile f], files_processed := true }, true) := by
  have hget : hfGet st.hash_file f.rel_path = none := hfGet_eq_none _ _ hfresh
  have hpre : process_file_pre cfg st f = .cont st none := by
    rw [process_file_pre,
      if_neg (fun hh => hrel ((filePathOf_inj cfg _ _).1 hh)),
      if_neg (by simp [hvu]),
      if_neg (by rw [hmf]; simp),
      if_neg (by rw [hif]; simp),
      hme, hget,
      if_neg hbin,
      if_neg (by rw [hc]; simp)]
  have hwh : wouldHash cfg = true := by
    rw [wouldHash, hc]
    simp
  rw [process_file, hpre]
  dsimp only
  rw [if_pos hwh]
  simp only [process_file_mutate]
  rw [if_pos hc, hfInsert_fresh _ _ fun o ho hh => hfresh o ho hh]
  rfl

theorem process_file_verify_step (cfg : ProcessorConfig) (st : RunState) (f : VisitedFile)
    (e : HashFileEntry)
    (hc : cfg.process_type = .verify) (hso : cfg.size_only = false)
    (hmf : cfg.matchFilter = none) (hif : cfg.ignoreFilter = none)
    (hrel : ¬ f.rel_path = cfg.hash_file_rel)
    (hvu : f.valid_unicode = true) (hme : f.meta_error = none)
    (hget : hfGet st.hash_file f.rel_path = some e)
    (hdig : e.digest = f.digest)
    (hsz : e.size = some f.size ∨ e.size = none) :
    process_file cfg st f =
      ({ st with hash_file := hfRemove st.hash_file f.rel_path, files_processed := true }, true) := by
  have hpre : process_file_pre cfg st f = .cont st (some e) := by
    rw [process_file_pre,
      if_neg (fun hh => hrel ((filePathOf_inj cfg _ _).1 hh)),
      if_neg (by simp [hvu]),
      if_neg (by rw [hmf]; simp),
      if_neg (by rw [hif]; simp),
      hme, hget]
    dsimp only
    rcases hsz with hsz | hsz
    · rw [hsz]
      dsimp only
      rw [if_neg (by simp)]
    · rw [hsz]
  have hwh : wouldHash cfg = true := by
    rw [wouldHash, hso]
    simp
  rw [process_file, hpre]
  dsimp only
  rw [if_pos hwh]
  simp only [process_file_mutate]
  rw [if_neg (by rw [hc]; simp), if_neg (by rw [hso]; simp [hdig])]

/-! ## Error-flag invariant -/

theorem process_file_pre_shapes (cfg : ProcessorConfig) (st : RunState) (f : VisitedFile) :
    (∃ e?, process_file_pre cfg st f = .cont st e?) ∨
    (∃ st1, process_file_pre cfg st f = .exit st1 ∧
      (st1 = st ∨ (∃ p s, st1 = handle_warning st p s) ∨ ∃ p s, st1 = handle_error st p s)) := by
  unfold process_file_pre
  repeat' split
  all_goals first
    | (left; exact ⟨_, rfl⟩)
    | (right; exact ⟨_, rfl, Or.inl rfl⟩)
    | (right; exact ⟨_, rfl, Or.inr (Or.inl ⟨_, _, rfl⟩)⟩)
    | (right; exact ⟨_, rfl, Or.inr (Or.inr ⟨_, _, rfl⟩)⟩)

theorem process_file_mutate_errors (cfg : ProcessorConfig) (st : RunState) (f : VisitedFile)
    (e? : Option HashFileEntry) (digest : Str) :
    ((process_file_mutate cfg st f e? digest).errors = st.errors ∧
      (process_file_mutate cfg st f e? digest).error_occurred = st.error_occurred) ∨
    ((process_file_mutate cfg st f e? digest).error_occurred = true ∧
      ¬ (process_file_mutate cfg st f e? digest).errors = []) := by
  unfold process_file_mutate handle_error
  repeat' split
  all_goals simp

theorem process_file_errors_iff (cfg : ProcessorConfig) (st : RunState) (f : VisitedFile)
    (h : st.error_occurred = true ↔ ¬ st.errors = []) :
    ((process_file cfg st f).1.error_occurred = true ↔ ¬ (process_file cfg st f).1.errors = []) := by
  rcases process_file_pre_shapes cfg st f with ⟨e?, hpre⟩ | ⟨st1, hpre, hsh⟩
  · rw [process_file, hpre]
    dsimp only
    by_cases hwh : wouldHash cfg = true
    · rw [if_pos hwh]
      rcases process_file_mutate_errors cfg st f e? f.digest with ⟨h1, h2⟩ | ⟨h1, h2⟩
      · show (process_file_mutate cfg st f e? f.digest).error_occurred = true ↔
          ¬ (process_file_mutate cfg st f e? f.digest).errors = []
        rw [h1, h2]
        exact h
      · show (process_file_mutate cfg st f e? f.digest).error_occurred = true ↔
          ¬ (process_file_mutate cfg st f e? f.digest).errors = []
        simp [h1, h2]
    · rw [if_neg hwh]
      rcases process_file_mutate_errors cfg st f e? [] with ⟨h1, h2⟩ | ⟨h1, h2⟩
      · show (process_file_mutate cfg st f e? []).error_occurred = true ↔
          ¬ (process_file_mutate cfg st f e? []).errors = []
        rw [h1, h2]
        exact h
      · show (process_file_mutate cfg st f e? []).error_occurred = true ↔
          ¬ (process_file_mutate cfg st f e? []).errors = []
        simp [h1, h2]
  · rw [process_file, hpre]
    dsimp only
    rcases hsh with rfl | ⟨p, s, rfl⟩ | ⟨p, s, rfl⟩
    · exact h
    · exact h
    · simp [handle_error]

theorem runWalk_errors_iff (cfg : ProcessorConfig) (files : List VisitedFile) :
    ∀ st : RunState, (st.error_occurred = true ↔ ¬ st.errors = []) →
      ((runWalk cfg st files).error_occurred = true ↔ ¬ (runWalk cfg st files).errors = []) := by
  induction files with
  | nil => intro st h; exact h
  | cons f fs ih =>
    intro st h
    rw [runWalk, List.foldl_cons]
    exact ih _ (process_file_errors_iff cfg st f h)

theorem missing_sweep_errors_iff (cfg : ProcessorConfig) (es : List HashFileEntry) :
    ∀ st : RunState, (st.error_occurred = true ↔ ¬ st.errors = []) →
      (((es.foldl (fun s e =>
          if missingSweepKeeps cfg e.file_path then handle_error s e.file_path .missing
          else s) st).error_occurred = true) ↔
        ¬ (es.foldl (fun s e =>
          if missingSweepKeeps cfg e.file_path then handle_error s e.file_path .missing
          else s) st).errors = []) := by
  induction es with
  | nil => intro st h; exact h
  | cons e es ih =>
    intro st h
    rw [List.foldl_cons]
    refine ih _ ?_
    by_cases hk : missingSweepKeeps cfg e.file_path = true
    · rw [if_pos hk]
      simp [handle_error]
    · rw [if_neg hk]
      exact h

/-! ## Finalization lemmas -/

theorem finalize_canceled (cfg : ProcessorConfig) (mapOrder : HashFileMap → List HashFileEntry)
    (st : RunState) : finalize cfg mapOrder true st = ⟨.canceled, st, none⟩ := by
  rw [finalize, if_pos rfl]

theorem runProcess_canceled (cfg : ProcessorConfig) (loaded : HashFileMap)
    (files : List VisitedFile) (mapOrder : HashFileMap → List HashFileEntry)
    (cancel : CancelSpec) (hc : ¬ cancel = .never) :
    runProcess cfg loaded files cancel mapOrder =
      ⟨.canceled,
       walkWithCancel cfg (RunState.init (if cfg.process_type = .verify then loaded else []))
         files cancel,
       none⟩ := by
  simp only [runProcess]
  rw [show (decide (¬ cancel = CancelSpec.never)) = true by simp [hc], finalize_canceled]

theorem finalize_not_canceled_error (cfg : ProcessorConfig)
    (mapOrder : HashFileMap → List HashFileEntry) (st : RunState)
    (hiff : st.error_occurred = true ↔ ¬ st.errors = [])
    (h : ¬ (finalize cfg mapOrder false st).state.errors = []) :
    (finalize cfg mapOrder false st).result = .error := by
  simp only [finalize] at h ⊢
  rw [if_neg (by simp)] at h ⊢
  by_cases he : st.error_occurred = true
  · rw [if_pos he]
  · rw [if_neg he] at h ⊢
    have herr : st.errors = [] := by
      by_contra hcon
      exact he (hiff.2 hcon)
    by_cases hcreate : cfg.process_type = .create
    · rw [if_pos hcreate] at h ⊢
      by_cases hemp : hfIsEmpty st.hash_file = true
      · rw [if_pos hemp] at h ⊢
        exact absurd herr (by simpa using h)
      · rw [if_neg hemp] at h ⊢
        by_cases hfp : st.files_processed = true
        · rw [if_pos hfp] at h ⊢
          exact absurd herr (by simpa using h)
        · rw [if_neg hfp] at h ⊢
          exact absurd herr (by simpa using h)
    · rw [if_neg hcreate] at h ⊢
      by_cases hne : ¬ hfIsEmpty st.hash_file = true
      · rw [if_pos hne] at h ⊢
        have hiff2 := missing_sweep_errors_iff cfg (mapOrder st.hash_file) st hiff
        by_cases he2 : ((mapOrder st.hash_file).foldl
            (fun s e =>
              if missingSweepKeeps cfg e.file_path then handle_error s e.file_path .missing
              else s) st).error_occurred = true
        · rw [if_pos he2]
        · rw [if_neg he2] at h ⊢
          have herr2 : ((mapOrder st.hash_file).foldl
              (fun s e =>
                if missingSweepKeeps cfg e.file_path then handle_error s e.file_path .missing
                else s) st).errors = [] := by
            by_contra hcon
            exact he2 (hiff2.2 hcon)
          by_cases hfp : ((mapOrder st.hash_file).foldl
              (fun s e =>
                if missingSweepKeeps cfg e.file_path then handle_error s e.file_path .missing
                else s) st).files_processed = true
          · rw [if_pos hfp] at h ⊢
            exact absurd herr2 (by simpa using h)
          · rw [if_neg hfp] at h ⊢
            exact absurd herr2 (by simpa using h)
      · rw [if_neg hne] at h ⊢
        by_cases hfp : st.files_processed = true
        · rw [if_pos hfp] at h ⊢
          exact absurd herr (by simpa using h)
        · rw [if_neg hfp] at h ⊢
          exact absurd herr (by simpa using h)

/-! ## Claim C9: error events force the Error result -/

/-- C9.  Recording a per-file error anomaly (`handle_error`) sets both the
error flag and the files-processed flag, so every non-cancelled run that
emitted at least one error event returns `Error` — never `NoFilesProcessed`.
The missing-file sweep goes through `handle_error` too, so a Verify run over
a directory with no eligible files whose manifest still lists files ends in
`Error` (see the witness). -/
theorem c9_error_events_give_error (cfg : ProcessorConfig) (loaded : HashFileMap)
    (files : List VisitedFile) (mapOrder : HashFileMap → List HashFileEntry)
    (h : ¬ (runProcess cfg loaded files .never mapOrder).state.errors = []) :
    (runProcess cfg loaded files .never mapOrder).result = .error ∧
    ¬ (runProcess cfg loaded files .never mapOrder).result = .noFilesProcessed := by
  have hiff : ((walkWithCancel cfg
        (RunState.init (if cfg.process_type = .verify then loaded else [])) files
        .never).error_occurred = true ↔
      ¬ (walkWithCancel cfg
        (RunState.init (if cfg.process_type = .verify then loaded else [])) files
        .never).errors = []) := by
    rw [walkWithCancel]
    exact runWalk_errors_iff cfg files _ (by simp [RunState.init])
  have hrp : runProcess cfg loaded files .never mapOrder
      = finalize cfg mapOrder false
          (walkWithCancel cfg (RunState.init (if cfg.process_type = .verify then loaded else []))
            files .never) := by
    simp only [runProcess]
    simp
  rw [hrp] at h ⊢
  have hres := finalize_not_canceled_error cfg mapOrder _ hiff h
  exact ⟨hres, by rw [hres]; simp⟩

/-- Witness for C9: a Verify run over a root with no files at all, whose
manifest lists `file`, emits a Missing error and returns `Error`. -/
theorem c9_witness :
    ¬ (runProcess c9Cfg c9Loaded [] .never id).state.errors = [] ∧
    (runProcess c9Cfg c9Loaded [] .never id).result = .error :=
  ⟨by decide, (c9_error_events_give_error c9Cfg c9Loaded [] id (by decide)).1⟩

/-! ## Claim C3: cancellation atomicity -/

/-- C3.  Cancellation atomicity: in every run in which the token is observed
set, the result is `Canceled` and no manifest content is written; and when
the token fires while file `i`'s digest is being computed (and that file's
processing did reach the digest computation), the engine state is exactly the
state before that file: the file is neither added to nor removed from the
in-memory manifest, no event is emitted for it, and it is not marked
processed. -/
theorem c3_cancellation_atomicity (cfg : ProcessorConfig) (loaded : HashFileMap)
    (files : List VisitedFile) (mapOrder : HashFileMap → List HashFileEntry)
    (cancel : CancelSpec) (hc : ¬ cancel = .never) :
    (runProcess cfg loaded files cancel mapOrder).result = .canceled ∧
    (runProcess cfg loaded files cancel mapOrder).written = none ∧
    ∀ i f, cancel = .duringHash i → files[i]? = some f →
      reachesHash cfg
        (runWalk cfg (RunState.init (if cfg.process_type = .verify then loaded else []))
          (files.take i)) f = true →
      (runProcess cfg loaded files cancel mapOrder).state =
        runWalk cfg (RunState.init (if cfg.process_type = .verify then loaded else []))
          (files.take i) := by
  have key := runProcess_canceled cfg loaded files mapOrder cancel hc
  refine ⟨by rw [key], by rw [key], ?_⟩
  intro i f hci hif hreach
  subst hci
  rw [key]
  show walkWithCancel cfg (RunState.init (if cfg.process_type = .verify then loaded else []))
      files (.duringHash i) = _
  rw [walkWithCancel, hif]
  dsimp only
  rw [reachesHash] at hreach
  rcases hpre : process_file_pre cfg
      (runWalk cfg (RunState.init (if cfg.process_type = .verify then loaded else []))
        (files.take i)) f with st1 | ⟨st1, e1⟩
  · rw [hpre] at hreach
    simp at hreach
  · have hst1 : st1 = runWalk cfg
        (RunState.init (if cfg.process_type = .verify then loaded else [])) (files.take i) :=
      process_file_pre_cont_state _ _ _ _ _ hpre
    rw [hpre] at hreach
    simp only [Bool.true_and] at hreach
    rw [process_file_interrupted, hpre]
    dsimp only
    rw [if_pos hreach]
    exact hst1

/-- Witness for C3: cancelling during the hash of the only file of a Create
run yields `Canceled`, writes nothing, and leaves the initial state. -/
theorem c3_witness :
    (runProcess c3Cfg [] [c3File] (.duringHash 0) id).result = .canceled ∧
    (runProcess c3Cfg [] [c3File] (.duringHash 0) id).written = none ∧
    (runProcess c3Cfg [] [c3File] (.duringHash 0) id).state = RunState.init [] := by
  have h := c3_cancellation_atomicity c3Cfg [] [c3File] id (.duringHash 0) (by decide)
  refine ⟨h.1, h.2.1, ?_⟩
  have h3 := h.2.2 0 c3File rfl (by decide) (by decide)
  simpa [runWalk] using h3

/-! ## Claim C6: size-mismatch short circuit -/

/-- C6 (amended).  For a visited file that reaches the manifest lookup — it
is not the manifest file itself, has a well-formed Unicode name, passes the
match and ignore filters, and its metadata is readable — whose entry carries
a size different from the actual file size, `process_file` emits exactly one
`IncorrectSize` error event for that file, never invokes the digest adapter
(second component `false`), and stops: the manifest and warnings are
untouched.  (As stated, the claim fails for visited files the filters or the
manifest-file skip exclude before the size check: see the counterexample.) -/
theorem c6_size_mismatch_short_circuit (cfg : ProcessorConfig) (st : RunState) (f : VisitedFile)
    (e : HashFileEntry) (esz : Nat)
    (hrel : ¬ f.rel_path = cfg.hash_file_rel)
    (hvu : f.valid_unicode = true)
    (hmatch : ¬ (cfg.matchFilter.map fun m => m (filePathOf cfg f.rel_path)).getD true = false)
    (hignore : ¬ (cfg.ignoreFilter.map fun m => m (filePathOf cfg f.rel_path)).getD false = true)
    (hme : f.meta_error = none)
    (hget : hfGet st.hash_file f.rel_path = some e)
    (hsz : e.size = some esz) (hne : ¬ f.size = esz) :
    process_file cfg st f = (handle_error st f.rel_path .incorrectSize, false) ∧
    (process_file cfg st f).1.errors = st.errors ++ [⟨f.rel_path, .incorrectSize⟩] ∧
    (process_file cfg st f).1.hash_file = st.hash_file ∧
    (process_file cfg st f).1.warnings = st.warnings := by
  have hpre : process_file_pre cfg st f = .exit (handle_error st f.rel_path .incorrectSize) := by
    rw [process_file_pre,
      if_neg (fun hh => hrel ((filePathOf_inj cfg _ _).1 hh)),
      if_neg (by simp [hvu]),
      if_neg hmatch, if_neg hignore, hme, hget]
    dsimp only
    rw [hsz]
    dsimp only
    rw [if_pos hne]
  have hmain : process_file cfg st f = (handle_error st f.rel_path .incorrectSize, false) := by
    rw [process_file, hpre]
  exact ⟨hmain, by rw [hmain]; rfl, by rw [hmain]; rfl, by rw [hmain]; rfl⟩

/-- Counterexample to C6 as stated: a Verify run whose ignore filter matches
everything (a compiled `.*` pattern).  The visited file `file` has a manifest
entry carrying size 5 while the actual size is 4, yet the run emits no event
at all and never hashes: the ignore filter returns before the size check. -/
theorem c6_counterexample :
    hfGet c6Loaded c6File.rel_path = some c6Entry ∧
    c6Entry.size = some 5 ∧ c6File.size = 4 ∧
    (runProcess c6Cfg c6Loaded [c6File] .never id).state.errors = [] ∧
    (runProcess c6Cfg c6Loaded [c6File] .never id).state.warnings = [] ∧
    (process_file c6Cfg (RunState.init c6Loaded) c6File).2 = false := by decide

/-- Witness for C6 (amended): a Verify processor with no filters, a manifest
entry of size 4 and an on-disk size of 7. -/
theorem c6_witness :
    process_file c9Cfg (RunState.init c9Loaded) c6WitnessFile
      = (handle_error (RunState.init c9Loaded) c6WitnessFile.rel_path .incorrectSize, false) :=
  (c6_size_mismatch_short_circuit c9Cfg (RunState.init c9Loaded) c6WitnessFile
    ⟨"file".data, some 4, true, "0f".data⟩ 4
    (by decide) (by decide) (by decide) (by decide) (by decide) (by decide) (by decide)
    (by decide)).1

/-! ## Claim C5: self-exclusion probes the working directory, not the root -/

/-- C5 (divergence witness).  `HashFileProcessor::new` keeps the binary's
file name for self-exclusion whenever `current_dir()` joined with that name
is a file — it never looks at the target root.  Here the working directory
(elsewhere) holds a file named like the binary while the binary does not
reside in the target root; the target root's ordinary data file `hshchk` is
nevertheless silently skipped during Create: the run succeeds with no event
for it and the manifest contains only `other`.  The claim's "if and only if
the binary resides directly inside the target root" is the code comment's
intent, not what the code does. -/
theorem c5_code_divergence :
    c5Cfg.process_type = .create ∧
    c5Cfg.bin_file_name = "hshchk".data ∧
    (runProcess c5Cfg [] [c5FileBinNamed, c5FileOther] .never id).result = .success ∧
    ((runProcess c5Cfg [] [c5FileBinNamed, c5FileOther] .never id).state.hash_file.map
      fun e => e.file_path) = ["other".data] ∧
    (runProcess c5Cfg [] [c5FileBinNamed, c5FileOther] .never id).state.errors = [] ∧
    (runProcess c5Cfg [] [c5FileBinNamed, c5FileOther] .never id).state.warnings = [] := by
  decide

/-! ## Claim C2: the concrete one-file scenario -/

set_option maxRecDepth 100000 in
/-- C2.  Concrete scenario for a root holding exactly `file` (4 bytes,
content `data`, digest-adapter output
`a17c9aaa61e80a1bf71d0d850af4e5baa9800bbd`): Create with SHA-1 selects
`hshchk.sha1` and writes exactly `file|4|a17c9…bbd\n`; with the size-less
format requested it selects `SHA1SUMS` and writes exactly
`a17c9…bbd *file\n`; re-probing processors select Verify mode against either
manifest, load it back, and the Verify runs (which also visit the manifest
file itself) return `Success` with no error and no warning events. -/
theorem c2_concrete_scenario :
    c2CfgCreateCheck.process_type = .create ∧
    c2CfgCreateCheck.hash_file_rel = "hshchk.sha1".data ∧
    (runProcess c2CfgCreateCheck [] [c2File] .never id).result = .success ∧
    (runProcess c2CfgCreateCheck [] [c2File] .never id).written = some c2ContentCheck ∧
    c2CfgCreateSum.process_type = .create ∧
    c2CfgCreateSum.hash_file_rel = "SHA1SUMS".data ∧
    (runProcess c2CfgCreateSum [] [c2File] .never id).result = .success ∧
    (runProcess c2CfgCreateSum [] [c2File] .never id).written = some c2ContentSum ∧
    c2CfgVerifyCheck.process_type = .verify ∧
    c2CfgVerifyCheck.hash_file_rel = "hshchk.sha1".data ∧
    hfLoad c2ContentCheck = .ok [entryOfFile c2File] ∧
    (runProcess c2CfgVerifyCheck [entryOfFile c2File]
      [c2File, manifestVisit ("hshchk.sha1".data)] .never id).result = .success ∧
    (runProcess c2CfgVerifyCheck [entryOfFile c2File]
      [c2File, manifestVisit ("hshchk.sha1".data)] .never id).state.errors = [] ∧
    (runProcess c2CfgVerifyCheck [entryOfFile c2File]
      [c2File, manifestVisit ("hshchk.sha1".data)] .never id).state.warnings = [] ∧
    c2CfgVerifySum.process_type = .verify ∧
    c2CfgVerifySum.hash_file_rel = "SHA1SUMS".data ∧
    hfLoad c2ContentSum = .ok [loadedEntry .hashSum (entryOfFile c2File)] ∧
    (runProcess c2CfgVerifySum [loadedEntry .hashSum (entryOfFile c2File)]
      [c2File, manifestVisit ("SHA1SUMS".data)] .never id).result = .success ∧
    (runProcess c2CfgVerifySum [loadedEntry .hashSum (entryOfFile c2File)]
      [c2File, manifestVisit ("SHA1SUMS".data)] .never id).state.errors = [] ∧
    (runProcess c2CfgVerifySum [loadedEntry .hashSum (entryOfFile c2File)]
      [c2File, manifestVisit ("SHA1SUMS".data)] .never id).state.warnings = [] := by
  decide

/-! ## Save and load round trip -/

theorem entryFormatterFor_eq (fmt : HashFileFormat) (e : HashFileEntry) :
    entryFormatterFor fmt e = formatLine fmt e ++ ['\n'] := by
  cases fmt <;>
    simp [entryFormatterFor, formatLine, format_hash_check_entry, hash_check_line,
      format_hash_sum_entry, hash_sum_line]

theorem hfSaveContent_eq_joinLines (fmt : HashFileFormat) (es : List HashFileEntry) :
    hfSaveContent fmt es = joinLines (es.map (formatLine fmt)) := by
  rw [hfSaveContent, joinLines, List.map_map]
  exact congrArg List.flatten (List.map_congr_left fun e _ => entryFormatterFor_eq fmt e)

theorem replaceSep_eq_self (l : Str) (h : ∀ c ∈ l, ¬ c = '\\') : replaceSep l = l := by
  rw [replaceSep, replaceChar]
  calc l.map (fun c => if c = replaceable_separator then main_separator else c)
      = l.map id := List.map_congr_left fun c hc => if_neg fun hh => h c hc hh
    _ = l := List.map_id l

theorem hash_check_line_chars (e : HashFileEntry) (n : Nat) (hsz : e.size = some n)
    (hp : WFPathStr e.file_path) (hd : WFDigestStr e.digest) :
    ∀ c ∈ hash_check_line e, ¬ c = '\n' ∧ ¬ c = '\r' ∧ ¬ c = '\\' := by
  intro c hc
  rw [hash_check_line, hsz] at hc
  rcases List.mem_append.1 hc with h1 | h1
  · rcases List.mem_append.1 h1 with h2 | h2
    · obtain ⟨-, -, h3⟩ := hp
      obtain ⟨-, ha, hb, hcc⟩ := h3 c h2
      exact ⟨ha, hb, hcc⟩
    · rcases List.mem_cons.1 h2 with h3 | h3
      · subst h3
        exact ⟨by decide, by decide, by decide⟩
      · have hdig := decimalRepr_digits n c h3
        obtain ⟨-, ha, hb, hcc, -⟩ := isDigit_excludes c hdig
        exact ⟨ha, hb, hcc⟩
  · rcases List.mem_cons.1 h1 with h3 | h3
    · subst h3
      exact ⟨by decide, by decide, by decide⟩
    · obtain ⟨-, -, h3d⟩ := hd
      obtain ⟨-, ha, hb, hcc, -⟩ := h3d c h3
      exact ⟨ha, hb, hcc⟩

theorem hash_sum_line_chars (e : HashFileEntry)
    (hp : WFPathStr e.file_path) (hd : WFDigestStr e.digest) :
    ∀ c ∈ hash_sum_line e, (¬ c = '\n' ∧ ¬ c = '\r' ∧ ¬ c = '\\') ∧ ¬ c = '|' := by
  intro c hc
  rw [hash_sum_line] at hc
  rcases List.mem_append.1 hc with h1 | h1
  · obtain ⟨-, -, h3⟩ := hd
    obtain ⟨ha, hb, hcc, hdd, -⟩ := h3 c h1
    exact ⟨⟨hb, hcc, hdd⟩, ha⟩
  · rcases List.mem_cons.1 h1 with h2 | h2
    · subst h2
      exact ⟨⟨by decide, by decide, by decide⟩, by decide⟩
    · rcases List.mem_cons.1 h2 with h3 | h3
      · subst h3
        exact ⟨⟨by decide, by decide, by decide⟩, by decide⟩
      · obtain ⟨-, -, h3p⟩ := hp
        obtain ⟨ha, hb, hcc, hdd⟩ := h3p c h3
        exact ⟨⟨hb, hcc, hdd⟩, ha⟩

theorem formatLine_chars (fmt : HashFileFormat) (e : HashFileEntry) (n : Nat)
    (hsz : e.size = some n) (hp : WFPathStr e.file_path) (hd : WFDigestStr e.digest) :
    ∀ c ∈ formatLine fmt e, ¬ c = '\n' ∧ ¬ c = '\r' ∧ ¬ c = '\\' := by
  cases fmt
  · exact hash_check_line_chars e n hsz hp hd
  · intro c hc
    exact (hash_sum_line_chars e hp hd c hc).1

theorem pipe_mem_hash_check_line (e : HashFileEntry) : '|' ∈ hash_check_line e := by
  rw [hash_check_line]
  simp

theorem parse_hash_check_line (e : HashFileEntry) (n : Nat) (hsz : e.size = some n)
    (hn : n ≤ U64_MAX) (hb : e.binary = true)
    (hp : WFPathStr e.file_path) (hd : WFDigestStr e.digest) :
    parse_hash_check_entry (hash_check_line e) = .ok (some e) := by
  obtain ⟨hpne, hplen, hpchars⟩ := hp
  obtain ⟨hdlen, hdlow, hdchars⟩ := hd
  have hsplit : splitOnChar '|' (hash_check_line e)
      = [e.file_path, decimalRepr n, e.digest] := by
    rw [hash_check_line, hsz, List.append_assoc, List.cons_append]
    have hg : (some n).get! = n := rfl
    rw [hg]
    rw [splitOnChar_append_cons _ _ _ fun hmem => (hpchars '|' hmem).1 rfl,
      splitOnChar_append_cons _ _ _
        (fun hmem => (isDigit_excludes _ (decimalRepr_digits n _ hmem)).1 rfl),
      splitOnChar_of_not_mem _ _ fun hmem => (hdchars '|' hmem).1 rfl]
  unfold parse_hash_check_entry
  rw [hsplit]
  dsimp only
  rw [if_neg (by simp only [gt_iff_lt, not_lt]; exact hplen),
    if_neg (by simp only [gt_iff_lt, not_lt]; exact hdlen),
    parseU64_decimalRepr n hn]
  dsimp only
  rw [hdlow]
  obtain ⟨p, sz, b, dg⟩ := e
  simp only at hsz hb
  subst hsz
  subst hb
  rfl

theorem findIdx?_append_sat (p : Char → Bool) (xs : Str) (c : Char) (ys : Str)
    (hx : ∀ x ∈ xs, p x = false) (hc : p c = true) :
    ∀ i, List.findIdx? p (xs ++ c :: ys) i = some (i + xs.length) := by
  induction xs with
  | nil =>
    intro i
    rw [List.nil_append, List.findIdx?_cons, if_pos hc]
    simp
  | cons a as ih =>
    intro i
    rw [List.cons_append, List.findIdx?_cons,
      if_neg (by simp [hx a (by simp)]),
      ih (fun x hxx => hx x (by simp [hxx])) (i + 1)]
    congr 1
    simp only [List.length_cons]
    omega

theorem getD_append_len (l1 : Str) (a : Char) (l2 : Str) (d : Char) :
    (l1 ++ a :: l2).getD l1.length d = a := by
  induction l1 with
  | nil => rfl
  | cons x xs ih => simpa [List.getD_cons_succ] using ih

theorem parse_hash_sum_line (e : HashFileEntry)
    (hp : WFPathStr e.file_path) (hd : WFDigestStr e.digest) :
    parse_hash_sum_entry (hash_sum_line e) = .ok (some { e with size := none, binary := true }) := by
  obtain ⟨hpne, hplen, hpchars⟩ := hp
  obtain ⟨hdlen, hdlow, hdchars⟩ := hd
  have hfind : List.findIdx? (fun c => decide (c = ' ')) (hash_sum_line e) 0
      = some e.digest.length := by
    rw [hash_sum_line]
    have := findIdx?_append_sat (fun c => decide (c = ' ')) e.digest ' '
      ('*' :: e.file_path)
      (fun x hx => by simp [(hdchars x hx).2.2.2.2]) (by simp) 0
    simpa using this
  rw [parse_hash_sum_entry]
  rw [show (hash_sum_line e).findIdx? (fun c => c = ' ') = some e.digest.length from hfind]
  dsimp only
  have hlen : (hash_sum_line e).length = e.digest.length + 2 + e.file_path.length := by
    rw [hash_sum_line]
    simp
    omega
  rw [if_neg (by omega)]
  have htake : (hash_sum_line e).take e.digest.length = e.digest := by
    rw [hash_sum_line]
    simpa using List.take_left e.digest (' ' :: '*' :: e.file_path)
  have hdrop : (hash_sum_line e).drop (e.digest.length + 2) = e.file_path := by
    rw [hash_sum_line,
      show e.digest ++ ' ' :: '*' :: e.file_path = (e.digest ++ [' ', '*']) ++ e.file_path by simp,
      show e.digest.length + 2 = (e.digest ++ [' ', '*']).length by simp]
    exact List.drop_left _ _
  have hgd : (hash_sum_line e).getD (e.digest.length + 1) ' ' = '*' := by
    rw [hash_sum_line,
      show e.digest ++ ' ' :: '*' :: e.file_path = (e.digest ++ [' ']) ++ '*' :: e.file_path by simp,
      show e.digest.length + 1 = (e.digest ++ [' ']).length by simp]
    exact getD_append_len _ _ _ _
  rw [htake, hdrop, hgd, if_neg (by simp only [gt_iff_lt, not_lt]; exact hplen), hdlow]
  simp

/-! ## Walk lemmas -/

theorem runWalk_cons (cfg : ProcessorConfig) (st : RunState) (f : VisitedFile)
    (fs : List VisitedFile) :
    runWalk cfg st (f :: fs) = runWalk cfg (process_file cfg st f).1 fs := by
  rw [runWalk, runWalk, List.foldl_cons]

theorem create_runWalk (cfg : ProcessorConfig)
    (hc : cfg.process_type = .create)
    (hmf : cfg.matchFilter = none) (hif : cfg.ignoreFilter = none) :
    ∀ files : List VisitedFile,
      (∀ f ∈ files, f.valid_unicode = true ∧ f.meta_error = none ∧
        ¬ f.rel_path = cfg.hash_file_rel ∧ ¬ f.rel_path = cfg.bin_file_name) →
      (files.map VisitedFile.rel_path).Nodup →
      ∀ st : RunState, (∀ e ∈ st.hash_file, ∀ f ∈ files, ¬ e.file_path = f.rel_path) →
      runWalk cfg st files =
        { st with hash_file := st.hash_file ++ files.map entryOfFile,
                  files_processed := st.files_processed || !files.isEmpty } := by
  intro files
  induction files with
  | nil =>
    intro _ _ st _
    simp [runWalk]
  | cons f fs ih =>
    intro hf hnd st hfresh
    obtain ⟨hvu, hme, hrel, hbin⟩ := hf f (by simp)
    have hstep := process_file_create_step cfg st f hc hmf hif hrel hvu hme hbin
      (fun e he => hfresh e he f (by simp))
    rw [List.map_cons, List.nodup_cons] at hnd
    have hfresh2 : ∀ e ∈ st.hash_file ++ [entryOfFile f], ∀ g ∈ fs,
        ¬ e.file_path = g.rel_path := by
      intro e he g hg
      rcases List.mem_append.1 he with he1 | he1
      · exact hfresh e he1 g (by simp [hg])
      · have heq : e = entryOfFile f := by simpa using he1
        subst heq
        intro hh
        refine hnd.1 ?_
        rw [show (entryOfFile f).file_path = f.rel_path from rfl] at hh
        rw [hh]
        exact List.mem_map_of_mem VisitedFile.rel_path hg
    have hrec := ih (fun x hx => hf x (by simp [hx])) hnd.2
      { st with hash_file := st.hash_file ++ [entryOfFile f], files_processed := true }
      hfresh2
    rw [runWalk_cons, hstep]
    dsimp only
    rw [hrec]
    simp [List.append_assoc]

theorem verify_runWalk (cfg : ProcessorConfig)
    (hc : cfg.process_type = .verify) (hso : cfg.size_only = false)
    (hmf : cfg.matchFilter = none) (hif : cfg.ignoreFilter = none) :
    ∀ files : List VisitedFile,
      (∀ f ∈ files, f.valid_unicode = true ∧ f.meta_error = none ∧
        ¬ f.rel_path = cfg.hash_file_rel) →
      (files.map VisitedFile.rel_path).Nodup →
      ∀ st : RunState,
      (∀ f ∈ files, ∃ e, hfGet st.hash_file f.rel_path = some e ∧
        e.digest = f.digest ∧ (e.size = some f.size ∨ e.size = none)) →
      runWalk cfg st files =
        { st with
          hash_file := files.foldl (fun m f => hfRemove m f.rel_path) st.hash_file,
          files_processed := st.files_processed || !files.isEmpty } := by
  intro files
  induction files with
  | nil =>
    intro _ _ st _
    simp [runWalk]
  | cons f fs ih =>
    intro hf hnd st hget
    obtain ⟨hvu, hme, hrel⟩ := hf f (by simp)
    obtain ⟨e, he, hdig, hsz⟩ := hget f (by simp)
    have hstep := process_file_verify_step cfg st f e hc hso hmf hif hrel hvu hme he hdig hsz
    rw [List.map_cons, List.nodup_cons] at hnd
    have hget2 : ∀ g ∈ fs, ∃ eg,
        hfGet (hfRemove st.hash_file f.rel_path) g.rel_path = some eg ∧
        eg.digest = g.digest ∧ (eg.size = some g.size ∨ eg.size = none) := by
      intro g hg
      obtain ⟨eg, heg, hdg, hsg⟩ := hget g (by simp [hg])
      refine ⟨eg, ?_, hdg, hsg⟩
      rw [hfGet_hfRemove_ne st.hash_file f.rel_path g.rel_path ?_, heg]
      intro hh
      refine hnd.1 ?_
      rw [← hh]
      exact List.mem_map_of_mem VisitedFile.rel_path hg
    have hrec := ih (fun x hx => hf x (by simp [hx])) hnd.2
      { st with hash_file := hfRemove st.hash_file f.rel_path, files_processed := true }
      hget2
    rw [runWalk_cons, hstep]
    dsimp only
    rw [hrec]
    simp

/-! ## Loading a saved manifest -/

theorem loadedEntry_file_path (fmt : HashFileFormat) (e : HashFileEntry) :
    (loadedEntry fmt e).file_path = e.file_path := by
  cases fmt <;> rfl

theorem loadedEntry_digest (fmt : HashFileFormat) (e : HashFileEntry) :
    (loadedEntry fmt e).digest = e.digest := by
  cases fmt <;> rfl

theorem parse_formatLine (fmt : HashFileFormat) (e : HashFileEntry) (hwf : WFEntry e) :
    entryParserFor fmt (replaceSep (formatLine fmt e)) = .ok (some (loadedEntry fmt e)) := by
  obtain ⟨⟨n, hsz, hn⟩, hb, hp, hd⟩ := hwf
  have hrep : replaceSep (formatLine fmt e) = formatLine fmt e :=
    replaceSep_eq_self _ fun c hc => (formatLine_chars fmt e n hsz hp hd c hc).2.2
  rw [hrep]
  cases fmt
  · exact parse_hash_check_line e n hsz hn hb hp hd
  · show parse_hash_sum_entry (hash_sum_line e) = .ok (some { e with size := none })
    rw [parse_hash_sum_line e hp hd]
    obtain ⟨p, sz, b, dg⟩ := e
    simp only at hb
    subst hb
    rfl

theorem hfLoadLines_ok (parse : Str → Except Str (Option HashFileEntry))
    (lines : List Str) (es : List HashFileEntry)
    (h : List.Forall₂ (fun l e => parse (replaceSep l) = .ok (some e)) lines es) :
    ∀ files : HashFileMap,
      hfLoadLines parse files lines = .ok (es.foldl hfInsert files) := by
  induction h with
  | nil =>
    intro files
    rfl
  | cons hle _ ih =>
    intro files
    rw [hfLoadLines, hle]
    exact ih _

theorem forall₂_map_pair {α β γ : Type} (R : β → γ → Prop) (f : α → β) (g : α → γ)
    (l : List α) (h : ∀ x ∈ l, R (f x) (g x)) :
    List.Forall₂ R (l.map f) (l.map g) := by
  induction l with
  | nil => exact List.Forall₂.nil
  | cons a as ih =>
    exact List.Forall₂.cons (h a (by simp)) (ih fun x hx => h x (by simp [hx]))

theorem foldl_hfInsert_fresh :
    ∀ es : List HashFileEntry, (es.map fun e => e.file_path).Nodup →
      ∀ acc : HashFileMap, (∀ a ∈ acc, ∀ e ∈ es, ¬ a.file_path = e.file_path) →
      es.foldl hfInsert acc = acc ++ es := by
  intro es
  induction es with
  | nil =>
    intro _ acc _
    simp
  | cons e es ih =>
    intro hnd acc hdisj
    rw [List.map_cons, List.nodup_cons] at hnd
    have hstep : hfInsert acc e = acc ++ [e] :=
      hfInsert_fresh acc e fun o ho => hdisj o ho e (by simp)
    have hdisj2 : ∀ a ∈ acc ++ [e], ∀ x ∈ es, ¬ a.file_path = x.file_path := by
      intro a ha x hx
      rcases List.mem_append.1 ha with ha1 | ha1
      · exact hdisj a ha1 x (by simp [hx])
      · have heq : a = e := by simpa using ha1
        subst heq
        intro hh
        refine hnd.1 ?_
        rw [hh]
        exact List.mem_map_of_mem (fun o => o.file_path) hx
    rw [List.foldl_cons, hstep, ih hnd.2 (acc ++ [e]) hdisj2, List.append_assoc]
    rfl

theorem read_line_saved (l : Str) (ls : List Str) (hnl : '\n' ∉ l) :
    read_line (joinLines (l :: ls)) = l ++ ['\n'] := by
  rw [joinLines_cons]
  simp only [read_line]
  have htw : (l ++ '\n' :: joinLines ls).takeWhile (fun c => ¬ c = '\n') = l :=
    takeWhile_append_cons _ _ _ _
      (fun x hx => by
        simp only [decide_eq_true_eq, decide_not]
        simp only [Bool.not_eq_true', decide_eq_false_iff_not]
        intro hh
        exact hnl (hh ▸ hx))
      (by simp)
  rw [htw, if_pos]
  simp

theorem get_hash_file_format_saved (fmt : HashFileFormat) (e : HashFileEntry)
    (es : List HashFileEntry) (hwf : WFEntry e) :
    get_hash_file_format (hfSaveContent fmt (e :: es)) = fmt := by
  obtain ⟨⟨n, hsz, hn⟩, hb, hp, hd⟩ := hwf
  have hnl : '\n' ∉ formatLine fmt e :=
    fun h => (formatLine_chars fmt e n hsz hp hd _ h).1 rfl
  rw [hfSaveContent_eq_joinLines, List.map_cons, get_hash_file_format,
    read_line_saved _ _ hnl]
  cases fmt
  · rw [if_pos]
    have hm : '|' ∈ formatLine .hashCheck e ++ ['\n'] :=
      List.mem_append.2 (Or.inl (pipe_mem_hash_check_line e))
    simpa using hm
  · rw [if_neg]
    intro hcontains
    have hm : '|' ∈ formatLine .hashSum e ++ ['\n'] := by simpa using hcontains
    rcases List.mem_append.1 hm with hm1 | hm1
    · exact (hash_sum_line_chars e hp hd '|' hm1).2 rfl
    · simp at hm1

theorem hfLoad_saved (fmt : HashFileFormat) (es : List HashFileEntry)
    (hwf : ∀ e ∈ es, WFEntry e)
    (hnd : (es.map fun e => e.file_path).Nodup)
    (hne : ¬ es = []) :
    hfLoad (hfSaveContent fmt es) = .ok (es.map (loadedEntry fmt)) := by
  have hchars : ∀ e ∈ es, ∀ c ∈ formatLine fmt e, ¬ c = '\n' ∧ ¬ c = '\r' ∧ ¬ c = '\\' := by
    intro e he
    obtain ⟨⟨n, hsz, hn⟩, hb, hp, hd⟩ := hwf e he
    exact formatLine_chars fmt e n hsz hp hd
  have hrl : rustLines (hfSaveContent fmt es) = es.map (formatLine fmt) := by
    rw [hfSaveContent_eq_joinLines]
    refine rustLines_joinLines _ ?_ ?_
    · intro l hl
      obtain ⟨e, he, rfl⟩ := List.mem_map.1 hl
      exact fun hm => (hchars e he _ hm).1 rfl
    · intro l hl c hc
      obtain ⟨e, he, rfl⟩ := List.mem_map.1 hl
      exact (hchars e he c hc).2.1
  have hfmt : get_hash_file_format (hfSaveContent fmt es) = fmt := by
    cases es with
    | nil => exact absurd rfl hne
    | cons e es => exact get_hash_file_format_saved fmt e es (hwf e (by simp))
  rw [hfLoad, hfmt, hrl]
  rw [hfLoadLines_ok (entryParserFor fmt) _ _
    (forall₂_map_pair _ _ _ es fun e he => parse_formatLine fmt e (hwf e he)) []]
  rw [foldl_hfInsert_fresh _ ?_ [] (by simp)]
  · rfl
  · have hmm : ((es.map (loadedEntry fmt)).map fun e => e.file_path)
        = es.map fun e => e.file_path := by
      rw [List.map_map]
      exact List.map_congr_left fun e _ => loadedEntry_file_path fmt e
    rw [hmm]
    exact hnd

/-! ## Mode selection at construction -/

theorem mem_iterOrder (t : HashType) : t ∈ HashType.iterOrder := by
  cases t <;> decide

theorem conventionalName_mem_manifestNames (t : HashType) (fmt : HashFileFormat) :
    conventionalName t fmt ∈ manifestNames := by
  cases t <;> cases fmt <;> decide

theorem hashcheck_name_eq_iff (t t' : HashType) (fmt : HashFileFormat) :
    get_hashcheck_file_name t' = conventionalName t fmt ↔ t' = t ∧ fmt = .hashCheck := by
  cases t <;> cases t' <;> cases fmt <;> decide

theorem hashsum_name_eq_iff (t t' : HashType) (fmt : HashFileFormat) :
    get_hashsum_file_name t' = conventionalName t fmt ↔ t' = t ∧ fmt = .hashSum := by
  cases t <;> cases t' <;> cases fmt <;> decide

theorem findSome?_none {α β : Type} (f : α → Option β) :
    ∀ l : List α, (∀ x ∈ l, f x = none) → l.findSome? f = none := by
  intro l
  induction l with
  | nil => intro _; rfl
  | cons a as ih =>
    intro h
    rw [List.findSome?_cons, h a (by simp)]
    exact ih fun x hx => h x (by simp [hx])

theorem findSome?_unique {α β : Type} [DecidableEq α] (f : α → Option β) (a : α) (b : β)
    (hf : f a = some b) :
    ∀ l : List α, a ∈ l → (∀ x ∈ l, ¬ x = a → f x = none) →
      l.findSome? f = some b := by
  intro l
  induction l with
  | nil => intro h _; cases h
  | cons x xs ih =>
    intro hl ho
    by_cases hx : x = a
    · subst hx
      rw [List.findSome?_cons, hf]
    · rw [List.findSome?_cons, ho x (by simp) hx]
      refine ih ?_ fun y hy hya => ho y (by simp [hy]) hya
      rcases List.mem_cons.1 hl with h | h
      · exact absurd h.symm hx
      · exact h

theorem hash_file_exists_none (paths : List Str) (t : HashType)
    (hnp : ∀ p ∈ paths, ¬ p ∈ manifestNames) : hash_file_exists paths t = none := by
  rw [hash_file_exists,
    if_neg (show ¬ get_hashcheck_file_name t ∈ paths from
      fun h => hnp _ h (conventionalName_mem_manifestNames t .hashCheck)),
    if_neg (show ¬ get_hashsum_file_name t ∈ paths from
      fun h => hnp _ h (conventionalName_mem_manifestNames t .hashSum))]

theorem get_existing_none (paths : List Str) (d : HashType)
    (hnp : ∀ p ∈ paths, ¬ p ∈ manifestNames) :
    get_existing_file_hash_type paths d = none := by
  rw [get_existing_file_hash_type, hash_file_exists_none paths d hnp]
  exact findSome?_none _ _ fun x _ => by
    rw [hash_file_exists_none paths x hnp]
    rfl

theorem hash_file_exists_conventional (paths : List Str) (t : HashType) (fmt : HashFileFormat)
    (t' : HashType) (hnp : ∀ p ∈ paths, ¬ p ∈ manifestNames) :
    hash_file_exists (conventionalName t fmt :: paths) t' =
      if t' = t then some fmt else none := by
  have hmem : ∀ nm : Str, nm ∈ manifestNames →
      (nm ∈ conventionalName t fmt :: paths ↔ nm = conventionalName t fmt) := by
    intro nm hnm
    simp only [List.mem_cons]
    constructor
    · rintro (h | h)
      · exact h
      · exact absurd hnm (hnp nm h)
    · exact Or.inl
  rw [hash_file_exists]
  by_cases ht : t' = t
  · subst ht
    cases fmt
    · rw [if_pos (show get_hashcheck_file_name t' ∈
          conventionalName t' .hashCheck :: paths from List.mem_cons_self _ _),
        if_pos rfl]
    · rw [if_neg ?_,
        if_pos (show get_hashsum_file_name t' ∈
          conventionalName t' .hashSum :: paths from List.mem_cons_self _ _),
        if_pos rfl]
      intro h
      have h2 := (hmem _ (conventionalName_mem_manifestNames t' .hashCheck)).1 h
      have h3 := (hashcheck_name_eq_iff t' t' .hashSum).1 h2
      cases h3.2
  · rw [if_neg ?_, if_neg ?_, if_neg ht]
    · intro h
      have h2 := (hmem _ (conventionalName_mem_manifestNames t' .hashSum)).1 h
      exact ht ((hashsum_name_eq_iff t t' fmt).1 h2).1
    · intro h
      have h2 := (hmem _ (conventionalName_mem_manifestNames t' .hashCheck)).1 h
      exact ht ((hashcheck_name_eq_iff t t' fmt).1 h2).1

theorem get_existing_conventional (paths : List Str) (t : HashType) (fmt : HashFileFormat)
    (d : HashType) (hnp : ∀ p ∈ paths, ¬ p ∈ manifestNames) :
    get_existing_file_hash_type (conventionalName t fmt :: paths) d = some (t, fmt) := by
  rw [get_existing_file_hash_type]
  by_cases hd : d = t
  · rw [hash_file_exists_conventional paths t fmt d hnp, if_pos hd]
    rw [hd]
  · rw [hash_file_exists_conventional paths t fmt d hnp, if_neg hd]
    refine findSome?_unique _ t (t, fmt) ?_ _ (mem_iterOrder t) ?_
    · rw [hash_file_exists_conventional paths t fmt t hnp, if_pos rfl]
      rfl
    · intro x _ hxt
      rw [hash_file_exists_conventional paths t fmt x hnp, if_neg hxt]
      rfl

theorem new_create_cfg (t : HashType) (fmtOpt : Option HashFileFormat) (paths : List Str)
    (exe : Str) (hnp : ∀ p ∈ paths, ¬ p ∈ manifestNames) :
    HashFileProcessor.new { hash_type := some t, hash_file_format := fmtOpt }
      { rootFiles := paths, exeFileName := exe, cwdHasExeNamedFile := false } =
    { process_type := .create, hash_type := t, hash_file_format := fmtOpt,
      hash_file_rel := conventionalName t (fmtOpt.getD .hashCheck),
      bin_file_name := [], base_path := [], size_only := false, report_extra := false,
      matchFilter := none, ignoreFilter := none } := by
  have hprobe := get_existing_none paths t hnp
  rcases fmtOpt with _ | fmt
  · simp [HashFileProcessor.new, hprobe] <;> rfl
  · cases fmt <;> simp [HashFileProcessor.new, hprobe] <;> rfl

theorem new_verify_cfg (t : HashType) (fmt : HashFileFormat) (paths : List Str) (exe : Str)
    (hnp : ∀ p ∈ paths, ¬ p ∈ manifestNames) :
    HashFileProcessor.new {}
      { rootFiles := conventionalName t fmt :: paths, exeFileName := exe,
        cwdHasExeNamedFile := false } =
    { process_type := .verify, hash_type := t, hash_file_format := some fmt,
      hash_file_rel := conventionalName t fmt,
      bin_file_name := [], base_path := [], size_only := false, report_extra := false,
      matchFilter := none, ignoreFilter := none } := by
  have hprobe := get_existing_conventional paths t fmt .sha1 hnp
  cases fmt <;> simp_all [HashFileProcessor.new] <;> rfl

theorem new_force_cfg (t : HashType) (roots : List Str) (exe : Str) :
    HashFileProcessor.new { hash_type := some t, force_create := some true }
      { rootFiles := roots, exeFileName := exe, cwdHasExeNamedFile := false } =
    { process_type := .create, hash_type := t, hash_file_format := none,
      hash_file_rel := get_hashcheck_file_name t,
      bin_file_name := [], base_path := [], size_only := false, report_extra := false,
      matchFilter := none, ignoreFilter := none } := rfl

/-! ## Whole-run outcomes -/

theorem loadedEntry_size (fmt : HashFileFormat) (e : HashFileEntry) :
    (loadedEntry fmt e).size = e.size ∨ (loadedEntry fmt e).size = none := by
  cases fmt
  · exact Or.inl rfl
  · exact Or.inr rfl

theorem create_run_outcome (cfg : ProcessorConfig) (order : HashFileMap → List HashFileEntry)
    (files : List VisitedFile)
    (hc : cfg.process_type = .create)
    (hmf : cfg.matchFilter = none) (hif : cfg.ignoreFilter = none)
    (hf : ∀ f ∈ files, f.valid_unicode = true ∧ f.meta_error = none ∧
      ¬ f.rel_path = cfg.hash_file_rel ∧ ¬ f.rel_path = cfg.bin_file_name)
    (hnd : (files.map VisitedFile.rel_path).Nodup)
    (hne : ¬ files = []) :
    runProcess cfg [] files .never order =
      { result := .success,
        state := { hash_file := files.map entryOfFile, error_occurred := false,
                   files_processed := true, errors := [], warnings := [] },
        written := some (hfSaveContent (cfg.hash_file_format.getD .hashCheck)
          (order (files.map entryOfFile))) } := by
  have hie : files.isEmpty = false := by
    cases files
    · exact absurd rfl hne
    · rfl
  have hwalk := create_runWalk cfg hc hmf hif files hf hnd (RunState.init [])
    (by intro e he; rw [RunState.init] at he; cases he)
  have hwalk2 : runWalk cfg (RunState.init []) files =
      { hash_file := files.map entryOfFile, error_occurred := false,
        files_processed := true, errors := [], warnings := [] } := by
    rw [hwalk]
    simp [RunState.init, hie]
  simp only [runProcess, walkWithCancel, ite_self]
  rw [hwalk2]
  simp [finalize, hc, hfIsEmpty, hie]
  exact hne

theorem verify_run_outcome (cfg : ProcessorConfig) (order : HashFileMap → List HashFileEntry)
    (loaded : HashFileMap) (files : List VisitedFile)
    (hc : cfg.process_type = .verify) (hso : cfg.size_only = false)
    (hmf : cfg.matchFilter = none) (hif : cfg.ignoreFilter = none)
    (hf : ∀ f ∈ files, f.valid_unicode = true ∧ f.meta_error = none ∧
      ¬ f.rel_path = cfg.hash_file_rel)
    (hnd : (files.map VisitedFile.rel_path).Nodup)
    (hne : ¬ files = [])
    (hget : ∀ f ∈ files, ∃ e, hfGet loaded f.rel_path = some e ∧
      e.digest = f.digest ∧ (e.size = some f.size ∨ e.size = none))
    (hcover : ∀ e ∈ loaded, e.file_path ∈ files.map VisitedFile.rel_path) :
    runProcess cfg loaded (manifestVisit cfg.hash_file_rel :: files) .never order =
      { result := .success,
        state := { hash_file := [], error_occurred := false,
                   files_processed := true, errors := [], warnings := [] },
        written := none } := by
  have hie : files.isEmpty = false := by
    cases files
    · exact absurd rfl hne
    · rfl
  have hskip : process_file cfg (RunState.init loaded) (manifestVisit cfg.hash_file_rel)
      = (RunState.init loaded, false) :=
    process_file_hash_file_skip cfg _ _ rfl
  have hwalk := verify_runWalk cfg hc hso hmf hif files hf hnd (RunState.init loaded) hget
  have hmap : files.foldl (fun m f => hfRemove m f.rel_path) loaded = [] := by
    have h1 : files.foldl (fun m f => hfRemove m f.rel_path) loaded
        = (files.map VisitedFile.rel_path).foldl hfRemove loaded := by
      rw [List.foldl_map]
    rw [h1, foldl_hfRemove_eq_filter]
    refine List.filter_eq_nil_iff.2 ?_
    intro e he
    simp [hcover e he]
  have hwalk2 : runWalk cfg (RunState.init loaded) files =
      { hash_file := [], error_occurred := false, files_processed := true,
        errors := [], warnings := [] } := by
    rw [hwalk]
    simp [RunState.init, hie, hmap]
  simp only [runProcess, walkWithCancel]
  rw [if_pos hc, runWalk_cons, hskip]
  dsimp only
  rw [hwalk2]
  simp [finalize, hc, hfIsEmpty]

/-! ## Claim C1: create/verify round trip -/

/-- C1.  Round trip, amended: over directories whose file names and digests
the wire formats transport losslessly (nonempty relative paths that avoid
the pipe delimiter, line breaks and the backslash and fit the defensive
length limit; lowercase delimiter-free digests; distinct paths; no
conventional manifest name already present; at least one file), a Create run
returns Success and writes a manifest; constructing a new processor over the
same root then selects Verify with the same manifest name, the written
manifest loads back, and the Verify run over the unchanged files (the walker
now also visiting the manifest file itself) returns Success with zero error
and warning events.  The claim's universal form over every directory is
refuted by `c1_counterexample`. -/
theorem c1_round_trip (files : List VisitedFile) (t : HashType)
    (fmtOpt : Option HashFileFormat) (exe : Str)
    (order1 order2 : HashFileMap → List HashFileEntry)
    (ho1 : ValidOrder order1) (ho2 : ValidOrder order2)
    (hwf : ∀ f ∈ files, WFFile f)
    (hnd : (files.map VisitedFile.rel_path).Nodup)
    (hne : ¬ files = [])
    (hnm : ∀ f ∈ files, ¬ f.rel_path ∈ manifestNames) :
    ∃ cfgC cfgV : ProcessorConfig, ∃ content : Str, ∃ loaded : HashFileMap,
      cfgC = HashFileProcessor.new { hash_type := some t, hash_file_format := fmtOpt }
        { rootFiles := files.map VisitedFile.rel_path, exeFileName := exe,
          cwdHasExeNamedFile := false } ∧
      cfgV = HashFileProcessor.new {}
        { rootFiles := cfgC.hash_file_rel :: files.map VisitedFile.rel_path,
          exeFileName := exe, cwdHasExeNamedFile := false } ∧
      cfgC.process_type = .create ∧
      cfgV.process_type = .verify ∧
      cfgV.hash_file_rel = cfgC.hash_file_rel ∧
      (runProcess cfgC [] files .never order1).result = .success ∧
      (runProcess cfgC [] files .never order1).written = some content ∧
      hfLoad content = .ok loaded ∧
      (runProcess cfgV loaded (manifestVisit cfgV.hash_file_rel :: files)
        .never order2).result = .success ∧
      (runProcess cfgV loaded (manifestVisit cfgV.hash_file_rel :: files)
        .never order2).state.errors = [] ∧
      (runProcess cfgV loaded (manifestVisit cfgV.hash_file_rel :: files)
        .never order2).state.warnings = [] := by
  have hnp : ∀ p ∈ files.map VisitedFile.rel_path, ¬ p ∈ manifestNames := by
    intro p hp
    obtain ⟨f, hfm, rfl⟩ := List.mem_map.1 hp
    exact hnm f hfm
  have hC := new_create_cfg t fmtOpt (files.map VisitedFile.rel_path) exe hnp
  have hV := new_verify_cfg t (fmtOpt.getD .hashCheck) (files.map VisitedFile.rel_path) exe hnp
  have hfC : ∀ f ∈ files, f.valid_unicode = true ∧ f.meta_error = none ∧
      ¬ f.rel_path = conventionalName t (fmtOpt.getD .hashCheck) ∧
      ¬ f.rel_path = ([] : Str) := by
    intro f hfm
    obtain ⟨hvu, hme, hszU, hp, hd⟩ := hwf f hfm
    refine ⟨hvu, hme, ?_, hp.1⟩
    intro hh
    exact hnm f hfm (hh ▸ conventionalName_mem_manifestNames t (fmtOpt.getD .hashCheck))
  have hfV : ∀ f ∈ files, f.valid_unicode = true ∧ f.meta_error = none ∧
      ¬ f.rel_path = conventionalName t (fmtOpt.getD .hashCheck) := by
    intro f hfm
    obtain ⟨h1, h2, h3, -⟩ := hfC f hfm
    exact ⟨h1, h2, h3⟩
  have hperm : (order1 (files.map entryOfFile)).Perm (files.map entryOfFile) :=
    ho1 (files.map entryOfFile)
  have hndM : ((files.map entryOfFile).map fun e => e.file_path).Nodup := by
    rw [List.map_map]
    exact hnd
  have hndE : ((order1 (files.map entryOfFile)).map fun e => e.file_path).Nodup :=
    ((hperm.map fun e => e.file_path).nodup_iff).2 hndM
  have hwfE : ∀ e ∈ order1 (files.map entryOfFile), WFEntry e := by
    intro e he
    obtain ⟨f, hfm, rfl⟩ := List.mem_map.1 (hperm.mem_iff.1 he)
    obtain ⟨hvu, hme, hszU, hp, hd⟩ := hwf f hfm
    exact ⟨⟨f.size, rfl, hszU⟩, rfl, hp, hd⟩
  have hneE : ¬ order1 (files.map entryOfFile) = [] := by
    intro hh
    have hlen := hperm.length_eq
    rw [hh] at hlen
    cases files with
    | nil => exact hne rfl
    | cons a as => simp at hlen
  have hload := hfLoad_saved (fmtOpt.getD .hashCheck) (order1 (files.map entryOfFile))
    hwfE hndE hneE
  have hndL : (((order1 (files.map entryOfFile)).map
      (loadedEntry (fmtOpt.getD .hashCheck))).map fun e => e.file_path).Nodup := by
    rw [List.map_map]
    rw [show ((fun e : HashFileEntry => e.file_path) ∘ loadedEntry (fmtOpt.getD .hashCheck))
        = fun e => (loadedEntry (fmtOpt.getD .hashCheck) e).file_path from rfl]
    rw [List.map_congr_left fun e _ => loadedEntry_file_path (fmtOpt.getD .hashCheck) e]
    exact hndE
  have hgetV : ∀ f ∈ files, ∃ e,
      hfGet ((order1 (files.map entryOfFile)).map (loadedEntry (fmtOpt.getD .hashCheck)))
        f.rel_path = some e ∧ e.digest = f.digest ∧
        (e.size = some f.size ∨ e.size = none) := by
    intro f hfm
    refine ⟨loadedEntry (fmtOpt.getD .hashCheck) (entryOfFile f), ?_, ?_, ?_⟩
    · have hmemL : loadedEntry (fmtOpt.getD .hashCheck) (entryOfFile f)
          ∈ (order1 (files.map entryOfFile)).map (loadedEntry (fmtOpt.getD .hashCheck)) :=
        List.mem_map_of_mem _ (hperm.mem_iff.2 (List.mem_map_of_mem entryOfFile hfm))
      have hg := hfGet_mem_of_nodup _ _ hndL hmemL
      rw [loadedEntry_file_path] at hg
      exact hg
    · exact (loadedEntry_digest _ _).trans rfl
    · rcases loadedEntry_size (fmtOpt.getD .hashCheck) (entryOfFile f) with h | h
      · exact Or.inl h
      · exact Or.inr h
  have hcoverV : ∀ e ∈ (order1 (files.map entryOfFile)).map
      (loadedEntry (fmtOpt.getD .hashCheck)),
      e.file_path ∈ files.map VisitedFile.rel_path := by
    intro e he
    obtain ⟨e1, he1, rfl⟩ := List.mem_map.1 he
    rw [loadedEntry_file_path]
    obtain ⟨f, hfm, rfl⟩ := List.mem_map.1 (hperm.mem_iff.1 he1)
    exact List.mem_map_of_mem VisitedFile.rel_path hfm
  refine ⟨_, _, hfSaveContent (fmtOpt.getD .hashCheck) (order1 (files.map entryOfFile)),
    (order1 (files.map entryOfFile)).map (loadedEntry (fmtOpt.getD .hashCheck)),
    rfl, rfl, ?_, ?_, ?_, ?_, ?_, ?_, ?_, ?_, ?_⟩
  · rw [hC]
  · rw [hC]
    dsimp only
    rw [hV]
  · rw [hC]
    dsimp only
    rw [hV]
  · rw [hC, create_run_outcome _ order1 files rfl rfl rfl hfC hnd hne]
  · rw [hC, create_run_outcome _ order1 files rfl rfl rfl hfC hnd hne]
  · exact hload
  · rw [hC]
    dsimp only
    rw [hV, verify_run_outcome _ order2 _ files rfl rfl rfl rfl hfV hnd hne hgetV hcoverV]
  · rw [hC]
    dsimp only
    rw [hV, verify_run_outcome _ order2 _ files rfl rfl rfl rfl hfV hnd hne hgetV hcoverV]
  · rw [hC]
    dsimp only
    rw [hV, verify_run_outcome _ order2 _ files rfl rfl rfl rfl hfV hnd hne hgetV hcoverV]

set_option maxRecDepth 100000 in
/-- The pipe-named file refuting C1's universal form: the Create run succeeds
and records the file `a|b`, but its path embeds the `HashCheck` delimiter, so
the written manifest line parses into four fields, the loader reconstructs an
empty manifest, and the follow-up Verify run over the unchanged directory
returns NoFilesProcessed instead of Success. -/
theorem c1_counterexample :
    (runProcess c1CfgCreate [] [c1PipeFile] .never id).result = .success ∧
    (runProcess c1CfgCreate [] [c1PipeFile] .never id).written
      = some "a|b|4|ff\n".data ∧
    hfLoad "a|b|4|ff\n".data = .ok [] ∧
    c1CfgVerify.process_type = .verify ∧
    (runProcess c1CfgVerify []
        [manifestVisit c1CfgVerify.hash_file_rel, c1PipeFile] .never id).result
      = .noFilesProcessed := by
  refine ⟨?_, ?_, ?_, ?_, ?_⟩ <;> decide

/-- Witness for `c1_round_trip` at the one-file directory holding `a`. -/
theorem c1_witness :
    ∃ cfgC cfgV : ProcessorConfig, ∃ content : Str, ∃ loaded : HashFileMap,
      cfgC = HashFileProcessor.new { hash_type := some .sha1, hash_file_format := none }
        { rootFiles := [c4FileA].map VisitedFile.rel_path, exeFileName := "hshchk".data,
          cwdHasExeNamedFile := false } ∧
      cfgV = HashFileProcessor.new {}
        { rootFiles := cfgC.hash_file_rel :: [c4FileA].map VisitedFile.rel_path,
          exeFileName := "hshchk".data, cwdHasExeNamedFile := false } ∧
      cfgC.process_type = .create ∧
      cfgV.process_type = .verify ∧
      cfgV.hash_file_rel = cfgC.hash_file_rel ∧
      (runProcess cfgC [] [c4FileA] .never id).result = .success ∧
      (runProcess cfgC [] [c4FileA] .never id).written = some content ∧
      hfLoad content = .ok loaded ∧
      (runProcess cfgV loaded (manifestVisit cfgV.hash_file_rel :: [c4FileA])
        .never id).result = .success ∧
      (runProcess cfgV loaded (manifestVisit cfgV.hash_file_rel :: [c4FileA])
        .never id).state.errors = [] ∧
      (runProcess cfgV loaded (manifestVisit cfgV.hash_file_rel :: [c4FileA])
        .never id).state.warnings = [] :=
  c1_round_trip [c4FileA] .sha1 none "hshchk".data id id
    (fun l => List.Perm.refl l) (fun l => List.Perm.refl l)
    (by decide) (by decide) (by decide) (by decide)

/-! ## Claim C4: Create-twice determinism -/

theorem rustLines_saved (fmt : HashFileFormat) (es : List HashFileEntry)
    (hwf : ∀ e ∈ es, WFEntry e) :
    rustLines (hfSaveContent fmt es) = es.map (formatLine fmt) := by
  have hchars : ∀ e ∈ es, ∀ c ∈ formatLine fmt e,
      ¬ c = '\n' ∧ ¬ c = '\r' ∧ ¬ c = '\\' := by
    intro e he
    obtain ⟨⟨n, hsz, hn⟩, hb, hp, hd⟩ := hwf e he
    exact formatLine_chars fmt e n hsz hp hd
  rw [hfSaveContent_eq_joinLines]
  refine rustLines_joinLines _ ?_ ?_
  · intro l hl
    obtain ⟨e, he, rfl⟩ := List.mem_map.1 hl
    exact fun hm => (hchars e he _ hm).1 rfl
  · intro l hl c hc
    obtain ⟨e, he, rfl⟩ := List.mem_map.1 hl
    exact (hchars e he c hc).2.1

theorem perm_of_short {α : Type} (l l2 : List α) (h : l.Perm l2) (hl : l2.length ≤ 1) :
    l = l2 := by
  cases l2 with
  | nil => exact List.perm_nil.1 h
  | cons a as =>
    cases as with
    | nil => exact List.perm_singleton.1 h
    | cons b bs => simp at hl

theorem create_run_outcome_revisit (cfg : ProcessorConfig)
    (order : HashFileMap → List HashFileEntry) (files : List VisitedFile)
    (hc : cfg.process_type = .create)
    (hmf : cfg.matchFilter = none) (hif : cfg.ignoreFilter = none)
    (hf : ∀ f ∈ files, f.valid_unicode = true ∧ f.meta_error = none ∧
      ¬ f.rel_path = cfg.hash_file_rel ∧ ¬ f.rel_path = cfg.bin_file_name)
    (hnd : (files.map VisitedFile.rel_path).Nodup)
    (hne : ¬ files = []) :
    runProcess cfg [] (manifestVisit cfg.hash_file_rel :: files) .never order =
      { result := .success,
        state := { hash_file := files.map entryOfFile, error_occurred := false,
                   files_processed := true, errors := [], warnings := [] },
        written := some (hfSaveContent (cfg.hash_file_format.getD .hashCheck)
          (order (files.map entryOfFile))) } := by
  have hie : files.isEmpty = false := by
    cases files
    · exact absurd rfl hne
    · rfl
  have hskip : process_file cfg (RunState.init []) (manifestVisit cfg.hash_file_rel)
      = (RunState.init [], false) :=
    process_file_hash_file_skip cfg _ _ rfl
  have hwalk := create_runWalk cfg hc hmf hif files hf hnd (RunState.init [])
    (by intro e he; rw [RunState.init] at he; cases he)
  have hwalk2 : runWalk cfg (RunState.init []) files =
      { hash_file := files.map entryOfFile, error_occurred := false,
        files_processed := true, errors := [], warnings := [] } := by
    rw [hwalk]
    simp [RunState.init, hie]
  simp only [runProcess, walkWithCancel, ite_self]
  rw [runWalk_cons, hskip]
  dsimp only
  rw [hwalk2]
  simp [finalize, hc, hfIsEmpty, hie]
  exact hne

/-- C4.  Create-twice determinism, amended: over a transportable unchanged
directory, a Create run and a second force-create run over the same root
(whose walker now also visits the manifest written by the first run) each
write the serialization of the same entry set — one line per file, in the
iteration order of the run's own `HashMap` instance.  The two outputs hold
the same lines up to permutation, and are byte-identical whenever the two
iteration orders coincide on that entry set — in particular for directories
with at most one file.  Byte-identity over every directory is refuted by
`c4_counterexample`: `HashMap` iteration order is not pinned across separate
processes. -/
theorem c4_create_twice (files : List VisitedFile) (t : HashType) (exe : Str)
    (order1 order2 : HashFileMap → List HashFileEntry)
    (ho1 : ValidOrder order1) (ho2 : ValidOrder order2)
    (hwf : ∀ f ∈ files, WFFile f)
    (hnd : (files.map VisitedFile.rel_path).Nodup)
    (hne : ¬ files = [])
    (hnm : ∀ f ∈ files, ¬ f.rel_path ∈ manifestNames) :
    ∃ c1 c2 : Str,
      (runProcess (HashFileProcessor.new { hash_type := some t }
          { rootFiles := files.map VisitedFile.rel_path, exeFileName := exe,
            cwdHasExeNamedFile := false }) [] files .never order1).written = some c1 ∧
      (runProcess (HashFileProcessor.new { hash_type := some t, force_create := some true }
          { rootFiles := get_hashcheck_file_name t :: files.map VisitedFile.rel_path,
            exeFileName := exe, cwdHasExeNamedFile := false }) []
          (manifestVisit (get_hashcheck_file_name t) :: files) .never order2).written
        = some c2 ∧
      c1 = hfSaveContent .hashCheck (order1 (files.map entryOfFile)) ∧
      c2 = hfSaveContent .hashCheck (order2 (files.map entryOfFile)) ∧
      (rustLines c1).Perm (rustLines c2) ∧
      (files.length ≤ 1 → c1 = c2) := by
  have hnp : ∀ p ∈ files.map VisitedFile.rel_path, ¬ p ∈ manifestNames := by
    intro p hp
    obtain ⟨f, hfm, rfl⟩ := List.mem_map.1 hp
    exact hnm f hfm
  have hC := new_create_cfg t none (files.map VisitedFile.rel_path) exe hnp
  have hF := new_force_cfg t (get_hashcheck_file_name t :: files.map VisitedFile.rel_path) exe
  have hfC : ∀ f ∈ files, f.valid_unicode = true ∧ f.meta_error = none ∧
      ¬ f.rel_path = get_hashcheck_file_name t ∧ ¬ f.rel_path = ([] : Str) := by
    intro f hfm
    obtain ⟨hvu, hme, hszU, hp, hd⟩ := hwf f hfm
    refine ⟨hvu, hme, ?_, hp.1⟩
    intro hh
    exact hnm f hfm (hh ▸ conventionalName_mem_manifestNames t .hashCheck)
  have hwfM : ∀ e ∈ files.map entryOfFile, WFEntry e := by
    intro e he
    obtain ⟨f, hfm, rfl⟩ := List.mem_map.1 he
    obtain ⟨hvu, hme, hszU, hp, hd⟩ := hwf f hfm
    exact ⟨⟨f.size, rfl, hszU⟩, rfl, hp, hd⟩
  have hwf1 : ∀ e ∈ order1 (files.map entryOfFile), WFEntry e :=
    fun e he => hwfM e ((ho1 _).mem_iff.1 he)
  have hwf2 : ∀ e ∈ order2 (files.map entryOfFile), WFEntry e :=
    fun e he => hwfM e ((ho2 _).mem_iff.1 he)
  refine ⟨hfSaveContent .hashCheck (order1 (files.map entryOfFile)),
          hfSaveContent .hashCheck (order2 (files.map entryOfFile)),
          ?_, ?_, rfl, rfl, ?_, ?_⟩
  · rw [hC, create_run_outcome _ order1 files rfl rfl rfl hfC hnd hne]
    rfl
  · rw [hF, create_run_outcome_revisit _ order2 files rfl rfl rfl hfC hnd hne]
    rfl
  · rw [rustLines_saved .hashCheck _ hwf1, rustLines_saved .hashCheck _ hwf2]
    exact ((ho1 _).map (formatLine .hashCheck)).trans
      ((ho2 _).map (formatLine .hashCheck)).symm
  · intro hlen
    have hm : (files.map entryOfFile).length ≤ 1 := by simpa using hlen
    rw [perm_of_short _ _ (ho1 _) hm, perm_of_short _ _ (ho2 _) hm]

set_option maxRecDepth 100000 in
/-- The two-file directory refuting C4's byte-identity: with files `a` and
`b`, a `HashMap` iteration order visiting `a` first on the first run and one
visiting `b` first on the forced second run are both valid (each enumerates
the map exactly once), yet the two written manifests differ byte-wise. -/
theorem c4_counterexample :
    ValidOrder (fun l : HashFileMap => l.reverse) ∧
    (runProcess c4CfgCreate [] [c4FileA, c4FileB] .never id).written
      = some "a|1|0a\nb|2|0b\n".data ∧
    (runProcess c4CfgForce []
        [manifestVisit "hshchk.sha1".data, c4FileA, c4FileB] .never
        (fun l => l.reverse)).written
      = some "b|2|0b\na|1|0a\n".data ∧
    ¬ ("a|1|0a\nb|2|0b\n".data : Str) = "b|2|0b\na|1|0a\n".data := by
  refine ⟨fun l => List.reverse_perm l, ?_, ?_, ?_⟩ <;> decide

/-- Witness for `c4_create_twice` at the one-file directory holding `a`. -/
theorem c4_witness :
    ∃ c1 c2 : Str,
      (runProcess (HashFileProcessor.new { hash_type := some .sha1 }
          { rootFiles := [c4FileA].map VisitedFile.rel_path, exeFileName := "hshchk".data,
            cwdHasExeNamedFile := false }) [] [c4FileA] .never id).written = some c1 ∧
      (runProcess (HashFileProcessor.new { hash_type := some .sha1, force_create := some true }
          { rootFiles := get_hashcheck_file_name .sha1 :: [c4FileA].map VisitedFile.rel_path,
            exeFileName := "hshchk".data, cwdHasExeNamedFile := false }) []
          (manifestVisit (get_hashcheck_file_name .sha1) :: [c4FileA]) .never id).written
        = some c2 ∧
      c1 = hfSaveContent .hashCheck (id ([c4FileA].map entryOfFile)) ∧
      c2 = hfSaveContent .hashCheck (id ([c4FileA].map entryOfFile)) ∧
      (rustLines c1).Perm (rustLines c2) ∧
      ([c4FileA].length ≤ 1 → c1 = c2) :=
  c4_create_twice [c4FileA] .sha1 "hshchk".data id id
    (fun l => List.Perm.refl l) (fun l => List.Perm.refl l)
    (by decide) (by decide) (by decide) (by decide)
